import Mathlib

/-!
Verification of the deepfetch resource-discovery and source-map
reconstruction pipeline.

The JavaScript source is shallowly embedded over `List Char` strings.
Browser builtins used by the source (`new URL`, `DOMParser`, `fetch`,
JS `Map`, JS regular expressions) are modelled by executable Lean
functions that follow the builtins' standard semantics on the inputs
the pipeline feeds them; every function of the repository itself is
translated clause by clause from the source files.
-/

set_option maxRecDepth 10000

/-- JavaScript strings are modelled as lists of characters. -/
abbrev Str := List Char

/-- JS `String.prototype.startsWith`. -/
def startsWithL (p s : Str) : Bool :=
  match p, s with
  | [], _ => true
  | _ :: _, [] => false
  | c :: p, d :: s => c = d && startsWithL p s

/-- JS `String.prototype.endsWith`. -/
def endsWithL (p s : Str) : Bool := startsWithL p.reverse s.reverse

/-- JS `String.prototype.includes`: substring test. -/
def hasSub (pat s : Str) : Bool :=
  match s with
  | [] => startsWithL pat []
  | _ :: rest => startsWithL pat s || hasSub pat rest

/-- Split a string at the first occurrence of character `c`: returns the part
before it and, when `c` occurs, the part after it. -/
def splitFirst (c : Char) : Str → Str × Option Str
  | [] => ([], none)
  | d :: rest =>
    if d = c then ([], some rest)
    else
      let p := splitFirst c rest
      (d :: p.1, p.2)

theorem startsWithL_refl (s : Str) : startsWithL s s = true := by
  induction s with
  | nil => rfl
  | cons c r ih => simp [startsWithL, ih]

theorem startsWithL_append (p t : Str) : startsWithL p (p ++ t) = true := by
  induction p with
  | nil => rfl
  | cons c r ih => simp [startsWithL, ih]

theorem startsWithL_iff (p s : Str) :
    startsWithL p s = true ↔ ∃ t, s = p ++ t := by
  induction p generalizing s with
  | nil => simp [startsWithL]
  | cons c r ih =>
    cases s with
    | nil => simp [startsWithL]
    | cons d t =>
      simp only [startsWithL, Bool.and_eq_true, decide_eq_true_eq, ih]
      constructor
      · rintro ⟨rfl, u, rfl⟩; exact ⟨u, rfl⟩
      · rintro ⟨u, h⟩
        injection h with h1 h2
        exact ⟨h1.symm, u, h2⟩

theorem startsWithL_head {c : Char} {p s : Str} (h : startsWithL (c :: p) s = true) :
    ∃ t, s = c :: t := by
  rcases (startsWithL_iff _ _).1 h with ⟨u, rfl⟩
  exact ⟨p ++ u, rfl⟩

theorem startsWithL_of_append {a b s : Str}
    (h : startsWithL (a ++ b) s = true) : startsWithL a s = true := by
  rcases (startsWithL_iff _ _).1 h with ⟨u, rfl⟩
  rw [List.append_assoc]
  exact startsWithL_append _ _

theorem splitFirst_not_mem {c : Char} {s : Str} (h : c ∉ s) :
    splitFirst c s = (s, none) := by
  induction s with
  | nil => rfl
  | cons d rest ih =>
    have hd : ¬ d = c := fun he => h (he ▸ List.mem_cons_self d rest)
    have hr : c ∉ rest := fun hm => h (List.mem_cons_of_mem _ hm)
    simp [splitFirst, hd, ih hr]

theorem splitFirst_append {c : Char} {a : Str} (b : Str) (h : c ∉ a) :
    splitFirst c (a ++ c :: b) = (a, some b) := by
  induction a with
  | nil => simp [splitFirst]
  | cons d rest ih =>
    have hd : ¬ d = c := fun he => h (he ▸ List.mem_cons_self d rest)
    have hr : c ∉ rest := fun hm => h (List.mem_cons_of_mem _ hm)
    simp [splitFirst, hd, ih hr]

theorem splitFirst_fst_subset {c : Char} {s : Str} :
    ∀ d, d ∈ (splitFirst c s).1 → d ∈ s := by
  induction s with
  | nil => intro d h; simp [splitFirst] at h
  | cons e rest ih =>
    intro d h
    by_cases he : e = c
    · simp [splitFirst, he] at h
    · simp only [splitFirst, he, if_false] at h
      rcases List.mem_cons.1 h with h1 | h2
      · exact h1 ▸ List.mem_cons_self _ _
      · exact List.mem_cons_of_mem _ (ih d h2)

theorem splitFirst_fst_not_mem {c : Char} {s : Str} : c ∉ (splitFirst c s).1 := by
  induction s with
  | nil => simp [splitFirst]
  | cons e rest ih =>
    by_cases he : e = c
    · simp [splitFirst, he]
    · simp only [splitFirst, he, if_false]
      intro h
      rcases List.mem_cons.1 h with h1 | h2
      · exact he h1.symm
      · exact ih h2

theorem splitFirst_snd_subset {c : Char} {s t : Str}
    (h : (splitFirst c s).2 = some t) : ∀ d, d ∈ t → d ∈ s := by
  induction s generalizing t with
  | nil => simp [splitFirst] at h
  | cons e rest ih =>
    intro d hd
    by_cases he : e = c
    · simp only [splitFirst, he, if_pos rfl] at h
      cases h
      exact List.mem_cons_of_mem _ hd
    · simp only [splitFirst, he, if_false] at h
      exact List.mem_cons_of_mem _ (ih h d hd)

/-- Digit character for a value below ten, as produced when JS renders a
number with `${counter}` interpolation. -/
def digitChar (n : Nat) : Char := Char.ofNat (48 + n)

/-- Decimal rendering of a natural number (the `${counter}` interpolation),
via fuel-bounded structural recursion so that it reduces by `decide`. -/
def natStrA : Nat → Nat → Str
  | 0, _ => []
  | f + 1, n =>
    if n < 10 then [digitChar n]
    else natStrA f (n / 10) ++ [digitChar (n % 10)]

def natStr (n : Nat) : Str := natStrA (n + 1) n

/-- Decimal decoding, used only to prove `natStr` injective. -/
def decodeDec (s : Str) : Nat := s.foldl (fun a c => a * 10 + (c.toNat - 48)) 0

theorem decodeDec_append (a : Str) (c : Char) :
    decodeDec (a ++ [c]) = decodeDec a * 10 + (c.toNat - 48) := by
  simp [decodeDec, List.foldl_append]

theorem digitChar_toNat {n : Nat} (h : n < 10) : (digitChar n).toNat = 48 + n := by
  interval_cases n <;> decide

theorem decodeDec_natStrA : ∀ f n, n < f → decodeDec (natStrA f n) = n := by
  intro f
  induction f with
  | zero => intro n h; omega
  | succ f ih =>
    intro n h
    by_cases h10 : n < 10
    · simp [natStrA, h10, decodeDec, digitChar_toNat h10]
    · have hdiv : n / 10 < f := by
        have h1 : n / 10 < n := Nat.div_lt_self (by omega) (by omega)
        omega
      have hmod : n % 10 < 10 := Nat.mod_lt _ (by omega)
      simp only [natStrA, h10, if_false]
      rw [decodeDec_append, ih _ hdiv, digitChar_toNat hmod]
      omega

theorem natStr_inj {m n : Nat} (h : natStr m = natStr n) : m = n := by
  have hm := decodeDec_natStrA (m + 1) m (Nat.lt_succ_self m)
  have hn := decodeDec_natStrA (n + 1) n (Nat.lt_succ_self n)
  rw [natStr] at h
  rw [natStr] at h
  rw [h] at hm
  omega

/-- JS `String.prototype.replace` with a plain-string pattern: replaces only
the first occurrence (an empty pattern matches at index 0). -/
def jsReplaceFirst (pat rep s : Str) : Str :=
  match pat with
  | [] => rep ++ s
  | _ :: _ =>
    match s with
    | [] => []
    | c :: rest =>
      if startsWithL pat s then rep ++ s.drop pat.length
      else c :: jsReplaceFirst pat rep rest

/-- JS lowercasing of an ASCII character (`toLowerCase` on the characters the
pipeline meets). -/
def lowerCh (c : Char) : Char :=
  if 65 ≤ c.toNat ∧ c.toNat ≤ 90 then Char.ofNat (c.toNat + 32) else c

theorem splitFirst_snd_length {c : Char} :
    ∀ {s t : Str}, (splitFirst c s).2 = some t → t.length < s.length := by
  intro s
  induction s with
  | nil => intro t h; simp [splitFirst] at h
  | cons e rest ih =>
    intro t h
    by_cases he : e = c
    · simp only [splitFirst, he, if_pos rfl] at h
      cases h
      simp [Nat.lt_succ_self]
    · simp only [splitFirst, he, if_false] at h
      exact Nat.lt_trans (ih h) (Nat.lt_succ_self _)

/-- JS `String.prototype.split` with a single-character separator,
via fuel so that it reduces by kernel computation. -/
def splitAllChA (c : Char) : Nat → Str → List Str
  | 0, s => [s]
  | f + 1, s =>
    match splitFirst c s with
    | (a, none) => [a]
    | (a, some rest) => a :: splitAllChA c f rest

def splitAllCh (c : Char) (s : Str) : List Str := splitAllChA c s.length s

/-- Join a list of chunks with a single-character separator (the inverse of
`splitAllCh` on chunks that avoid the separator). -/
def joinCh (c : Char) : List Str → Str
  | [] => []
  | [s] => s
  | s :: rest => s ++ c :: joinCh c rest

theorem splitAllChA_congr (c : Char) :
    ∀ f g s, s.length ≤ f → s.length ≤ g → splitAllChA c f s = splitAllChA c g s := by
  intro f
  induction f with
  | zero =>
    intro g s hf _
    have : s = [] := List.eq_nil_of_length_eq_zero (Nat.le_zero.1 hf)
    subst this
    cases g <;> simp [splitAllChA, splitFirst]
  | succ f ih =>
    intro g s hf hg
    cases g with
    | zero =>
      have : s = [] := List.eq_nil_of_length_eq_zero (Nat.le_zero.1 hg)
      subst this
      simp [splitAllChA, splitFirst]
    | succ g =>
      simp only [splitAllChA]
      cases h : splitFirst c s with
      | mk a o =>
        cases o with
        | none => rfl
        | some rest =>
          have hlt : rest.length < s.length := splitFirst_snd_length (by rw [h])
          have h1 : rest.length ≤ f := by omega
          have h2 : rest.length ≤ g := by omega
          simp [ih g rest h1 h2]

theorem splitAllCh_eq_fuel (c : Char) (f : Nat) (s : Str) (h : s.length ≤ f) :
    splitAllCh c s = splitAllChA c f s :=
  splitAllChA_congr c s.length f s (Nat.le_refl _) h

theorem splitAllCh_nil (c : Char) : splitAllCh c [] = [[]] := rfl

theorem splitAllCh_not_mem {c : Char} {s : Str} (h : c ∉ s) :
    splitAllCh c s = [s] := by
  unfold splitAllCh
  cases s with
  | nil => rfl
  | cons d rest =>
    simp only [splitAllChA, splitFirst_not_mem h]

theorem splitAllCh_append {c : Char} {a : Str} (b : Str) (h : c ∉ a) :
    splitAllCh c (a ++ c :: b) = a :: splitAllCh c b := by
  unfold splitAllCh
  have hlen : (a ++ c :: b).length = a.length + b.length + 1 := by
    simp only [List.length_append, List.length_cons]
    omega
  cases hl : (a ++ c :: b).length with
  | zero => omega
  | succ n =>
    simp only [splitAllChA, splitFirst_append b h]
    have hb : b.length ≤ n := by omega
    exact congrArg _ (splitAllChA_congr c n b.length b hb (Nat.le_refl _))

/-- `splitAllCh` is a left inverse of `joinCh` on nonempty chunk lists that
avoid the separator. -/
theorem splitAllCh_joinCh (c : Char) :
    ∀ ls, ls ≠ [] → (∀ l ∈ ls, c ∉ l) → splitAllCh c (joinCh c ls) = ls := by
  intro ls
  induction ls with
  | nil => intro h; exact absurd rfl h
  | cons s rest ih =>
    intro _ hmem
    cases rest with
    | nil =>
      show splitAllCh c s = [s]
      exact splitAllCh_not_mem (hmem s (List.mem_cons_self _ _))
    | cons t rest2 =>
      show splitAllCh c (s ++ c :: joinCh c (t :: rest2)) = s :: t :: rest2
      rw [splitAllCh_append _ (hmem s (List.mem_cons_self _ _))]
      rw [ih (by simp) (fun l hl => hmem l (List.mem_cons_of_mem _ hl))]

theorem splitAllChA_sep_not_mem (c : Char) :
    ∀ f s l, l ∈ splitAllChA c f s → c ∉ l ∨ f < s.length := by
  intro f
  induction f with
  | zero =>
    intro s l hl
    cases s with
    | nil =>
      left
      simp only [splitAllChA, List.mem_singleton] at hl
      subst hl; simp
    | cons d r => right; simp
  | succ f ih =>
    intro s l hl
    simp only [splitAllChA] at hl
    cases h : splitFirst c s with
    | mk a o =>
      rw [h] at hl
      cases o with
      | none =>
        left
        simp only [List.mem_singleton] at hl
        subst hl
        have := splitFirst_fst_not_mem (c := c) (s := s)
        rwa [h] at this
      | some rest =>
        rcases List.mem_cons.1 hl with h1 | h2
        · left
          subst h1
          have := splitFirst_fst_not_mem (c := c) (s := s)
          rwa [h] at this
        · rcases ih rest l h2 with h3 | h4
          · left; exact h3
          · right
            have hlt : rest.length < s.length := splitFirst_snd_length (by rw [h])
            omega

theorem splitAllCh_sep_not_mem (c : Char) (s : Str) :
    ∀ l ∈ splitAllCh c s, c ∉ l := by
  intro l hl
  rcases splitAllChA_sep_not_mem c s.length s l hl with h | h
  · exact h
  · omega

theorem splitAllChA_subset (c : Char) :
    ∀ f s l, l ∈ splitAllChA c f s → ∀ d, d ∈ l → d ∈ s := by
  intro f
  induction f with
  | zero =>
    intro s l hl d hd
    simp only [splitAllChA, List.mem_singleton] at hl
    exact hl ▸ hd
  | succ f ih =>
    intro s l hl d hd
    simp only [splitAllChA] at hl
    cases h : splitFirst c s with
    | mk a o =>
      rw [h] at hl
      cases o with
      | none =>
        simp only [List.mem_singleton] at hl
        subst hl
        have := splitFirst_fst_subset (c := c) (s := s) d
        rw [h] at this
        exact this hd
      | some rest =>
        rcases List.mem_cons.1 hl with h1 | h2
        · subst h1
          have := splitFirst_fst_subset (c := c) (s := s) d
          rw [h] at this
          exact this hd
        · exact splitFirst_snd_subset (by rw [h]) d (ih rest l h2 d hd)

theorem splitAllCh_subset (c : Char) (s : Str) :
    ∀ l ∈ splitAllCh c s, ∀ d, d ∈ l → d ∈ s :=
  splitAllChA_subset c s.length s

theorem splitAllChA_ne_nil (c : Char) : ∀ f s, splitAllChA c f s ≠ [] := by
  intro f
  cases f with
  | zero => intro s; simp [splitAllChA]
  | succ f =>
    intro s
    simp only [splitAllChA]
    cases h : splitFirst c s with
    | mk a o => cases o <;> simp

theorem splitAllCh_ne_nil (c : Char) (s : Str) : splitAllCh c s ≠ [] :=
  splitAllChA_ne_nil c s.length s

theorem joinCh_mem (c : Char) :
    ∀ ls d, d ∈ joinCh c ls → d = c ∨ ∃ l ∈ ls, d ∈ l := by
  intro ls
  induction ls with
  | nil => intro d hd; simp [joinCh] at hd
  | cons s rest ih =>
    intro d hd
    cases rest with
    | nil =>
      right
      exact ⟨s, List.mem_cons_self _ _, hd⟩
    | cons t rest2 =>
      have : d ∈ s ++ c :: joinCh c (t :: rest2) := hd
      rcases List.mem_append.1 this with h1 | h2
      · right; exact ⟨s, List.mem_cons_self _ _, h1⟩
      · rcases List.mem_cons.1 h2 with h3 | h4
        · left; exact h3
        · rcases ih d h4 with h5 | ⟨l, hl, hdl⟩
          · left; exact h5
          · right; exact ⟨l, List.mem_cons_of_mem _ hl, hdl⟩

/-- A parsed WHATWG URL as the pipeline uses it: only the pieces that
`addResourceUrl`, `generateFilename` and the source-map resolver read.
Models the browser `URL` builtin restricted to authority-based URLs. -/
structure Url where
  scheme : Str
  host : Str
  path : List Str
  query : Option Str
  frag : Option Str
deriving DecidableEq

/-- Characters allowed in a scheme by the model (lowercase-normalised form). -/
def schemeChar (c : Char) : Bool :=
  decide ('a' ≤ c ∧ c ≤ 'z') || decide ('0' ≤ c ∧ c ≤ '9')
    || c == '+' || c == '-' || c == '.'

/-- Characters the model never places in a host or path segment. -/
def okAuthChar (c : Char) : Bool := !(c == '/' || c == '?' || c == '#')

/-- Read a scheme followed by a colon off the front of a string. -/
def takeScheme (s : Str) : Option (Str × Str) :=
  match s.takeWhile schemeChar with
  | [] => none
  | c :: rest0 =>
    if decide ('a' ≤ c ∧ c ≤ 'z') then
      match s.dropWhile schemeChar with
      | ':' :: r => some (c :: rest0, r)
      | _ => none
    else none

/-- URL path normalisation (removal of `.` and `..` segments), one step per
input segment; the final segment leaves a trailing empty segment behind, as
in the WHATWG algorithm for http(s) URLs. -/
def normSegsGo (acc : List Str) : List Str → List Str
  | [] => acc
  | [d] =>
    if d = ['.'] then acc ++ [[]]
    else if d = ['.', '.'] then acc.dropLast ++ [[]]
    else acc ++ [d]
  | d :: rest =>
    if d = ['.'] then normSegsGo acc rest
    else if d = ['.', '.'] then normSegsGo acc.dropLast rest
    else normSegsGo (acc ++ [d]) rest

def normSegs (l : List Str) : List Str := normSegsGo [] l

/-- Path segments for the part after the authority: an absent path is the
root path. -/
def segsOfPathRest : Option Str → List Str
  | none => [([] : Str)]
  | some p => splitAllCh '/' p

/-- Parse the part of an authority-based URL after `scheme://`. -/
def parseAuthority (sch rest2 : Str) : Option Url :=
  match splitFirst '#' rest2 with
  | (bh, frag) =>
    match splitFirst '?' bh with
    | (bq, query) =>
      match splitFirst '/' bq with
      | (auth, pathRest) =>
        if auth.isEmpty then none
        else
          some { scheme := sch, host := auth, path := normSegs (segsOfPathRest pathRest),
                 query := query, frag := frag }

/-- Parse an absolute authority-based URL (`scheme://host/path?query#frag`). -/
def parseAbsUrl (s : Str) : Option Url :=
  match takeScheme s with
  | none => none
  | some (sch, rest) =>
    match rest with
    | '/' :: '/' :: rest2 => parseAuthority sch rest2
    | _ => none

/-- Resolve a reference against a base URL: the browser `new URL(ref, base)`
builtin on authority-based URLs. -/
def resolveRef (r : Str) (base : Url) : Option Url :=
  match takeScheme r with
  | some _ => parseAbsUrl r
  | none =>
    match splitFirst '#' r with
    | (bh, frag) =>
      match splitFirst '?' bh with
      | (bq, query) =>
        match bq with
        | '/' :: '/' :: rest2 =>
          match splitFirst '/' rest2 with
          | (auth, pathRest) =>
            if auth.isEmpty then none
            else
              some { scheme := base.scheme, host := auth,
                     path := normSegs (segsOfPathRest pathRest),
                     query := query, frag := frag }
        | '/' :: p =>
          some { scheme := base.scheme, host := base.host,
                 path := normSegs (splitAllCh '/' p), query := query, frag := frag }
        | [] =>
          match query with
          | some _ =>
            some { scheme := base.scheme, host := base.host, path := base.path,
                   query := query, frag := frag }
          | none =>
            match frag with
            | some _ =>
              some { scheme := base.scheme, host := base.host, path := base.path,
                     query := base.query, frag := frag }
            | none =>
              some { scheme := base.scheme, host := base.host, path := base.path,
                     query := base.query, frag := none }
        | p =>
          if (p.takeWhile (fun c => !(c == '/'))).contains ':' then none
          else
            some { scheme := base.scheme, host := base.host,
                   path := normSegs (base.path.dropLast ++ splitAllCh '/' p),
                   query := query, frag := frag }

/-- Serialised path (the `pathname` of the URL). -/
def hrefPath (path : List Str) : Str := '/' :: joinCh '/' path

/-- Serialised query part. -/
def qStr : Option Str → Str
  | some q => '?' :: q
  | none => []

/-- Serialised fragment part. -/
def fStr : Option Str → Str
  | some f => '#' :: f
  | none => []

/-- The serialised URL (`href`). -/
def Url.href (u : Url) : Str :=
  u.scheme ++ ':' :: '/' :: '/' ::
    (u.host ++ hrefPath u.path ++ qStr u.query ++ fStr u.frag)

def Url.pathname (u : Url) : Str := hrefPath u.path

/-- JS `url.search`: empty when there is no query or the query is empty. -/
def Url.search (u : Url) : Str :=
  match u.query with
  | some q => if q.isEmpty then [] else '?' :: q
  | none => []

/-- The scheme is nonempty and led by a lowercase letter. -/
def schemeHeadOk (sch : Str) : Bool :=
  match sch with
  | [] => false
  | c :: _ => decide ('a' ≤ c ∧ c ≤ 'z')

/-- Well-formedness invariant maintained by the parser and resolver: it makes
`Url.href` a section of `parseAbsUrl`. -/
def Url.wf (u : Url) : Bool :=
  schemeHeadOk u.scheme &&
  u.scheme.all schemeChar &&
  !u.host.isEmpty && u.host.all okAuthChar &&
  !u.path.isEmpty &&
  u.path.all (fun seg => seg.all okAuthChar && !(seg == ['.']) && !(seg == ['.', '.'])) &&
  (match u.query with | some q => q.all (fun c => !(c == '#')) | none => true)

/-- `addResourceUrl`, part_001 lines 396-410: the decision whether a candidate
reference is added, and the absolute URL it is added as. Returns the
resolved `href` exactly when the source adds it to the set. -/
def resolveUrl (url : Str) (base : Url) : Option Str :=
  if url.isEmpty || startsWithL ['d', 'a', 't', 'a', ':'] url
      || startsWithL ['#'] url
      || startsWithL ['m', 'a', 'i', 'l', 't', 'o', ':'] url
      || startsWithL ['t', 'e', 'l', ':'] url then none
  else
    match resolveRef url base with
    | some u => if startsWithL ['h', 't', 't', 'p'] u.href then some u.href else none
    | none => none

theorem takeWhile_append_stop {p : Char → Bool} {a : Str} {c : Char} (b : Str)
    (ha : ∀ x ∈ a, p x = true) (hc : p c = false) :
    (a ++ c :: b).takeWhile p = a := by
  induction a with
  | nil => simp [List.takeWhile_cons, hc]
  | cons d rest ih =>
    have hd : p d = true := ha d (List.mem_cons_self _ _)
    simp only [List.cons_append, List.takeWhile_cons, hd, if_true]
    rw [ih (fun x hx => ha x (List.mem_cons_of_mem _ hx))]

theorem dropWhile_append_stop {p : Char → Bool} {a : Str} {c : Char} (b : Str)
    (ha : ∀ x ∈ a, p x = true) (hc : p c = false) :
    (a ++ c :: b).dropWhile p = c :: b := by
  induction a with
  | nil => simp [List.dropWhile_cons, hc]
  | cons d rest ih =>
    have hd : p d = true := ha d (List.mem_cons_self _ _)
    simp only [List.cons_append, List.dropWhile_cons, hd, if_true]
    exact ih (fun x hx => ha x (List.mem_cons_of_mem _ hx))

theorem takeScheme_append {sch : Str} {c0 : Char} (t : Str)
    (hhead : sch = c0 :: sch.tail) (hc0 : ('a' ≤ c0 ∧ c0 ≤ 'z'))
    (hall : ∀ x ∈ sch, schemeChar x = true) :
    takeScheme (sch ++ ':' :: t) = some (sch, t) := by
  have hcolon : schemeChar ':' = false := by decide
  have htake : (sch ++ ':' :: t).takeWhile schemeChar = sch :=
    takeWhile_append_stop t hall hcolon
  have hdrop : (sch ++ ':' :: t).dropWhile schemeChar = ':' :: t :=
    dropWhile_append_stop t hall hcolon
  unfold takeScheme
  rw [htake, hdrop]
  rw [hhead]
  simp [hc0]

theorem normSegsGo_eq_of_no_dots :
    ∀ (l : List Str) (acc : List Str),
      (∀ s ∈ l, s ≠ ['.'] ∧ s ≠ ['.', '.']) → normSegsGo acc l = acc ++ l := by
  intro l
  induction l with
  | nil => intro acc _; simp [normSegsGo]
  | cons d rest ih =>
    intro acc h
    have hd := h d (List.mem_cons_self _ _)
    cases rest with
    | nil =>
      show normSegsGo acc [d] = acc ++ [d]
      simp [normSegsGo, hd.1, hd.2]
    | cons e rest2 =>
      show normSegsGo acc (d :: e :: rest2) = acc ++ d :: e :: rest2
      simp only [normSegsGo, hd.1, hd.2, if_false]
      rw [ih (acc ++ [d]) (fun s hs => h s (List.mem_cons_of_mem _ hs))]
      simp

theorem normSegsGo_no_dots :
    ∀ (l : List Str) (acc : List Str),
      (∀ s ∈ acc, s ≠ ['.'] ∧ s ≠ ['.', '.']) →
      ∀ s ∈ normSegsGo acc l, s ≠ ['.'] ∧ s ≠ ['.', '.'] := by
  intro l
  induction l with
  | nil => intro acc hacc; simpa [normSegsGo] using hacc
  | cons d rest ih =>
    intro acc hacc
    have hdrop : ∀ s ∈ acc.dropLast, s ≠ ['.'] ∧ s ≠ ['.', '.'] :=
      fun s hs => hacc s (List.dropLast_subset acc hs)
    cases rest with
    | nil =>
      intro s hs
      show s ≠ ['.'] ∧ s ≠ ['.', '.']
      by_cases h1 : d = ['.']
      · simp only [normSegsGo, h1, if_pos rfl] at hs
        rcases List.mem_append.1 hs with h | h
        · exact hacc s h
        · simp only [List.mem_singleton] at h
          subst h; exact ⟨by simp, by simp⟩
      · by_cases h2 : d = ['.', '.']
        · simp only [normSegsGo, h1, h2, if_false, if_pos rfl] at hs
          rcases List.mem_append.1 hs with h | h
          · exact hdrop s h
          · simp only [List.mem_singleton] at h
            subst h; exact ⟨by simp, by simp⟩
        · simp only [normSegsGo, h1, h2, if_false] at hs
          rcases List.mem_append.1 hs with h | h
          · exact hacc s h
          · simp only [List.mem_singleton] at h
            subst h; exact ⟨h1, h2⟩
    | cons e rest2 =>
      by_cases h1 : d = ['.']
      · simp only [normSegsGo, h1, if_pos rfl]
        exact ih acc hacc
      · by_cases h2 : d = ['.', '.']
        · simp only [normSegsGo, h1, h2, if_false, if_pos rfl]
          exact ih acc.dropLast hdrop
        · simp only [normSegsGo, h1, h2, if_false]
          refine ih (acc ++ [d]) ?_
          intro s hs
          rcases List.mem_append.1 hs with h | h
          · exact hacc s h
          · simp only [List.mem_singleton] at h
            subst h; exact ⟨h1, h2⟩

theorem normSegsGo_mem :
    ∀ (l : List Str) (acc : List Str),
      ∀ s ∈ normSegsGo acc l, s ∈ acc ∨ s ∈ l ∨ s = [] := by
  intro l
  induction l with
  | nil => intro acc s hs; left; simpa [normSegsGo] using hs
  | cons d rest ih =>
    intro acc s hs
    cases rest with
    | nil =>
      by_cases h1 : d = ['.']
      · simp only [normSegsGo, h1, if_pos rfl] at hs
        rcases List.mem_append.1 hs with h | h
        · left; exact h
        · right; right; simpa using h
      · by_cases h2 : d = ['.', '.']
        · simp only [normSegsGo, h1, h2, if_false, if_pos rfl] at hs
          rcases List.mem_append.1 hs with h | h
          · left; exact List.dropLast_subset acc h
          · right; right; simpa using h
        · simp only [normSegsGo, h1, h2, if_false] at hs
          rcases List.mem_append.1 hs with h | h
          · left; exact h
          · right; left; simpa using h
    | cons e rest2 =>
      by_cases h1 : d = ['.']
      · simp only [normSegsGo, h1, if_pos rfl] at hs
        rcases ih acc s hs with h | h | h
        · left; exact h
        · right; left; exact List.mem_cons_of_mem _ h
        · right; right; exact h
      · by_cases h2 : d = ['.', '.']
        · simp only [normSegsGo, h1, h2, if_false, if_pos rfl] at hs
          rcases ih acc.dropLast s hs with h | h | h
          · left; exact List.dropLast_subset acc h
          · right; left; exact List.mem_cons_of_mem _ h
          · right; right; exact h
        · simp only [normSegsGo, h1, h2, if_false] at hs
          rcases ih (acc ++ [d]) s hs with h | h | h
          · rcases List.mem_append.1 h with h3 | h3
            · left; exact h3
            · right; left
              simp only [List.mem_singleton] at h3
              subst h3; exact List.mem_cons_self _ _
          · right; left; exact List.mem_cons_of_mem _ h
          · right; right; exact h

theorem normSegsGo_ne_nil :
    ∀ (l : List Str) (acc : List Str), l ≠ [] → normSegsGo acc l ≠ [] := by
  intro l
  induction l with
  | nil => intro acc h; exact absurd rfl h
  | cons d rest ih =>
    intro acc _
    cases rest with
    | nil =>
      by_cases h1 : d = ['.']
      · simp [normSegsGo, h1]
      · by_cases h2 : d = ['.', '.']
        · simp [normSegsGo, h1, h2]
        · simp [normSegsGo, h1, h2]
    | cons e rest2 =>
      by_cases h1 : d = ['.']
      · simp only [normSegsGo, h1, if_pos rfl]
        exact ih acc (by simp)
      · by_cases h2 : d = ['.', '.']
        · simp only [normSegsGo, h1, h2, if_false, if_pos rfl]
          exact ih acc.dropLast (by simp)
        · simp only [normSegsGo, h1, h2, if_false]
          exact ih (acc ++ [d]) (by simp)

theorem normSegs_eq_of_no_dots {l : List Str}
    (h : ∀ s ∈ l, s ≠ ['.'] ∧ s ≠ ['.', '.']) : normSegs l = l :=
  normSegsGo_eq_of_no_dots l [] h

theorem splitFirst_fStr {A : Str} (f : Option Str) (hA : '#' ∉ A) :
    splitFirst '#' (A ++ fStr f) = (A, f) := by
  cases f with
  | none =>
    show splitFirst '#' (A ++ []) = (A, none)
    rw [List.append_nil]
    exact splitFirst_not_mem hA
  | some y => exact splitFirst_append y hA

theorem splitFirst_qStr {A : Str} (q : Option Str) (hA : '?' ∉ A) :
    splitFirst '?' (A ++ qStr q) = (A, q) := by
  cases q with
  | none =>
    show splitFirst '?' (A ++ []) = (A, none)
    rw [List.append_nil]
    exact splitFirst_not_mem hA
  | some y => exact splitFirst_append y hA

theorem okAuthChar_spec {c : Char} (h : okAuthChar c = true) :
    c ≠ '/' ∧ c ≠ '?' ∧ c ≠ '#' := by
  simp only [okAuthChar, Bool.not_eq_true', Bool.or_eq_false_iff, beq_eq_false_iff_ne,
    ne_eq] at h
  exact ⟨h.1.1, h.1.2, h.2⟩

/-- `Url.href` is a section of `parseAbsUrl` on well-formed URLs: reparsing a
serialised URL recovers it exactly. -/
theorem parseAbsUrl_href {u : Url} (h : u.wf = true) : parseAbsUrl u.href = some u := by
  obtain ⟨us, uh, up, uq, uf⟩ := u
  simp only [Url.wf, Bool.and_eq_true, List.all_eq_true] at h
  obtain ⟨⟨⟨⟨⟨⟨hhead, hsch⟩, hh1⟩, hh2⟩, hp1⟩, hp2⟩, hq⟩ := h
  cases us with
  | nil => simp [schemeHeadOk] at hhead
  | cons c0 rest0 =>
    have hc0 : 'a' ≤ c0 ∧ c0 ≤ 'z' := by simpa [schemeHeadOk] using hhead
    have hhostOk : ∀ x ∈ uh, x ≠ '/' ∧ x ≠ '?' ∧ x ≠ '#' :=
      fun x hx => okAuthChar_spec (hh2 x hx)
    have hsegsOk : ∀ seg ∈ up, (∀ c ∈ seg, c ≠ '/' ∧ c ≠ '?' ∧ c ≠ '#') := by
      intro seg hseg c hc
      have := hp2 seg hseg
      simp only [Bool.and_eq_true, List.all_eq_true] at this
      exact okAuthChar_spec (this.1.1 c hc)
    have hnodots : ∀ seg ∈ up, seg ≠ ['.'] ∧ seg ≠ ['.', '.'] := by
      intro seg hseg
      have := hp2 seg hseg
      simp only [Bool.and_eq_true, Bool.not_eq_true', beq_eq_false_iff_ne, ne_eq] at this
      exact ⟨this.1.2, this.2⟩
    have hupne : up ≠ [] := by
      intro he; rw [he] at hp1; simp at hp1
    have huhne : uh ≠ [] := by
      intro he; rw [he] at hh1; simp at hh1
    have hJq : '?' ∉ joinCh '/' up := by
      intro hmem
      rcases joinCh_mem '/' up '?' hmem with h | ⟨l, hl, hdl⟩
      · exact absurd h (by decide)
      · exact (hsegsOk l hl '?' hdl).2.1 rfl
    have hJh : '#' ∉ joinCh '/' up := by
      intro hmem
      rcases joinCh_mem '/' up '#' hmem with h | ⟨l, hl, hdl⟩
      · exact absurd h (by decide)
      · exact (hsegsOk l hl '#' hdl).2.2 rfl
    have hJs : ∀ l ∈ up, '/' ∉ l := by
      intro l hl hc
      exact (hsegsOk l hl '/' hc).1 rfl
    have hhq : '?' ∉ uh := fun hm => (hhostOk _ hm).2.1 rfl
    have hhh : '#' ∉ uh := fun hm => (hhostOk _ hm).2.2 rfl
    have hhs : '/' ∉ uh := fun hm => (hhostOk _ hm).1 rfl
    have hAh : '#' ∉ uh ++ hrefPath up ++ qStr uq := by
      intro hm
      rcases List.mem_append.1 hm with hm1 | hm2
      · rcases List.mem_append.1 hm1 with hm3 | hm4
        · exact hhh hm3
        · rcases List.mem_cons.1 hm4 with hm5 | hm6
          · exact absurd hm5 (by decide)
          · exact hJh hm6
      · cases uq with
        | none => simp [qStr] at hm2
        | some q =>
          rcases List.mem_cons.1 hm2 with hm5 | hm6
          · exact absurd hm5 (by decide)
          · exact absurd (List.all_eq_true.1 hq '#' hm6) (by simp)
    have hAq : '?' ∉ uh ++ hrefPath up := by
      intro hm
      rcases List.mem_append.1 hm with hm1 | hm2
      · exact hhq hm1
      · rcases List.mem_cons.1 hm2 with hm5 | hm6
        · exact absurd hm5 (by decide)
        · exact hJq hm6
    have hhf : uh.isEmpty = false := by
      cases uh with
      | nil => exact absurd rfl huhne
      | cons a b => rfl
    show parseAbsUrl ((c0 :: rest0) ++ ':' :: '/' :: '/' ::
      (uh ++ hrefPath up ++ qStr uq ++ fStr uf)) = _
    unfold parseAbsUrl
    rw [takeScheme_append _ rfl hc0 hsch]
    simp only [parseAuthority]
    rw [splitFirst_fStr uf hAh]
    simp only [splitFirst_qStr uq hAq]
    simp only [hrefPath]
    simp only [splitFirst_append (joinCh '/' up) hhs]
    simp only [hhf, Bool.false_eq_true, if_false, segsOfPathRest,
      splitAllCh_joinCh '/' up hupne hJs, normSegs_eq_of_no_dots hnodots]

theorem okAuthChar_intro {c : Char} (h1 : c ≠ '/') (h2 : c ≠ '?') (h3 : c ≠ '#') :
    okAuthChar c = true := by
  simp [okAuthChar, h1, h2, h3]

theorem takeScheme_out {s sch rest : Str} (h : takeScheme s = some (sch, rest)) :
    (∀ x ∈ sch, schemeChar x = true) ∧ schemeHeadOk sch = true := by
  unfold takeScheme at h
  split at h
  · exact absurd h (by simp)
  · rename_i c rest0 htw
    split at h
    · rename_i hc
      split at h
      · rename_i r hdw
        simp only [Option.some.injEq, Prod.mk.injEq] at h
        obtain ⟨hsch, _⟩ := h
        subst hsch
        refine ⟨?_, by simpa [schemeHeadOk] using hc⟩
        intro x hx
        exact List.mem_takeWhile_imp (htw ▸ hx)
      · exact absurd h (by simp)
    · exact absurd h (by simp)

theorem wf_intro {sch host : Str} {path : List Str} {query frag : Option Str}
    (h1 : schemeHeadOk sch = true)
    (h2 : ∀ x ∈ sch, schemeChar x = true)
    (h3 : host ≠ [])
    (h4 : ∀ x ∈ host, okAuthChar x = true)
    (h5 : path ≠ [])
    (h6 : ∀ seg ∈ path, (∀ c ∈ seg, okAuthChar c = true) ∧ seg ≠ ['.'] ∧ seg ≠ ['.', '.'])
    (h7 : ∀ x, query = some x → '#' ∉ x) :
    Url.wf ⟨sch, host, path, query, frag⟩ = true := by
  simp only [Url.wf, Bool.and_eq_true, List.all_eq_true]
  refine ⟨⟨⟨⟨⟨⟨h1, h2⟩, ?_⟩, h4⟩, ?_⟩, ?_⟩, ?_⟩
  · simpa [List.isEmpty_iff] using h3
  · simpa [List.isEmpty_iff] using h5
  · intro seg hs
    obtain ⟨ha, hb, hc⟩ := h6 seg hs
    simp only [Bool.and_eq_true, List.all_eq_true, Bool.not_eq_true', beq_eq_false_iff_ne,
      ne_eq]
    exact ⟨⟨ha, hb⟩, hc⟩
  · cases query with
    | none => rfl
    | some q =>
      simp only [List.all_eq_true]
      intro c hc
      have : c ≠ '#' := fun he => h7 q rfl (he ▸ hc)
      simpa using this

theorem wf_elim {u : Url} (h : u.wf = true) :
    (schemeHeadOk u.scheme = true) ∧
    (∀ x ∈ u.scheme, schemeChar x = true) ∧
    u.host ≠ [] ∧ (∀ x ∈ u.host, okAuthChar x = true) ∧
    u.path ≠ [] ∧
    (∀ seg ∈ u.path, (∀ c ∈ seg, okAuthChar c = true) ∧ seg ≠ ['.'] ∧ seg ≠ ['.', '.']) ∧
    (∀ x, u.query = some x → '#' ∉ x) := by
  simp only [Url.wf, Bool.and_eq_true, List.all_eq_true] at h
  obtain ⟨⟨⟨⟨⟨⟨ha, hb⟩, hc⟩, hd⟩, he⟩, hf⟩, hg⟩ := h
  refine ⟨ha, hb, by simpa [List.isEmpty_iff] using hc, hd,
    by simpa [List.isEmpty_iff] using he, ?_, ?_⟩
  · intro seg hs
    have := hf seg hs
    simp only [Bool.and_eq_true, List.all_eq_true, Bool.not_eq_true', beq_eq_false_iff_ne,
      ne_eq] at this
    exact ⟨this.1.1, this.1.2, this.2⟩
  · intro x hx hm
    rw [hx] at hg
    exact absurd (List.all_eq_true.1 hg '#' hm) (by simp)

theorem normSegs_path_ok {l : List Str}
    (hl : ∀ seg ∈ l, ∀ c ∈ seg, okAuthChar c = true) (hne : l ≠ []) :
    normSegs l ≠ [] ∧
    ∀ seg ∈ normSegs l, (∀ c ∈ seg, okAuthChar c = true) ∧ seg ≠ ['.'] ∧ seg ≠ ['.', '.'] := by
  constructor
  · exact normSegsGo_ne_nil l [] hne
  · intro seg hseg
    have hdots := normSegsGo_no_dots l [] (by intro s hs; simp at hs) seg hseg
    refine ⟨?_, hdots.1, hdots.2⟩
    rcases normSegsGo_mem l [] seg hseg with h | h | h
    · simp at h
    · exact hl seg h
    · intro c hc; rw [h] at hc; simp at hc

theorem splitAllCh_segs_ok {p bq bh : Str}
    (hp : ∀ d ∈ p, d ∈ bq) (hq : '?' ∉ bq) (hh : ∀ d ∈ bq, d ∈ bh) (hhash : '#' ∉ bh) :
    ∀ seg ∈ splitAllCh '/' p, ∀ c ∈ seg, okAuthChar c = true := by
  intro seg hseg c hc
  have hslash : '/' ∉ seg := splitAllCh_sep_not_mem '/' p seg hseg
  have hcp : c ∈ p := splitAllCh_subset '/' p seg hseg c hc
  refine okAuthChar_intro (fun he => hslash (he ▸ hc)) (fun he => hq ?_) (fun he => hhash ?_)
  · exact he ▸ hp c hcp
  · exact he ▸ hh c (hp c hcp)

theorem segsOfPathRest_ok {pr : Option Str} {bq bh : Str}
    (hp : ∀ x, pr = some x → ∀ d ∈ x, d ∈ bq)
    (hq : '?' ∉ bq) (hh : ∀ d ∈ bq, d ∈ bh) (hhash : '#' ∉ bh) :
    segsOfPathRest pr ≠ [] ∧
    ∀ seg ∈ segsOfPathRest pr, ∀ c ∈ seg, okAuthChar c = true := by
  cases pr with
  | none =>
    refine ⟨by simp [segsOfPathRest], ?_⟩
    intro seg hseg c hc
    simp only [segsOfPathRest, List.mem_singleton] at hseg
    rw [hseg] at hc
    simp at hc
  | some p =>
    exact ⟨splitAllCh_ne_nil '/' p, splitAllCh_segs_ok (hp p rfl) hq hh hhash⟩

theorem parseAuthority_wf {sch rest2 : Str} {u : Url}
    (hs1 : ∀ x ∈ sch, schemeChar x = true)
    (hs2 : schemeHeadOk sch = true)
    (h : parseAuthority sch rest2 = some u) : u.wf = true := by
  unfold parseAuthority at h
  split at h
  rename_i bh frag hbh
  split at h
  rename_i bq query hbq
  split at h
  rename_i auth pathRest hauth
  split at h
  · exact absurd h (by simp)
  · rename_i hne
    simp only [Option.some.injEq] at h
    subst h
    have hbh1 : '#' ∉ bh := by
      have := splitFirst_fst_not_mem (c := '#') (s := rest2)
      rwa [hbh] at this
    have hbq1 : '?' ∉ bq := by
      have := splitFirst_fst_not_mem (c := '?') (s := bh)
      rwa [hbq] at this
    have hbq2 : ∀ d ∈ bq, d ∈ bh := by
      intro d hd
      have := splitFirst_fst_subset (c := '?') (s := bh) d
      rw [hbq] at this
      exact this hd
    have hauth1 : '/' ∉ auth := by
      have := splitFirst_fst_not_mem (c := '/') (s := bq)
      rwa [hauth] at this
    have hauth2 : ∀ d ∈ auth, d ∈ bq := by
      intro d hd
      have := splitFirst_fst_subset (c := '/') (s := bq) d
      rw [hauth] at this
      exact this hd
    have hprsub : ∀ x, pathRest = some x → ∀ d ∈ x, d ∈ bq := by
      intro x hx d hd
      have : (splitFirst '/' bq).2 = some x := by rw [hauth, hx]
      exact splitFirst_snd_subset this d hd
    obtain ⟨hpne, hpok⟩ := segsOfPathRest_ok hprsub hbq1 hbq2 hbh1
    obtain ⟨hn1, hn2⟩ := normSegs_path_ok hpok hpne
    refine wf_intro hs2 hs1 ?_ ?_ hn1 hn2 ?_
    · intro he
      rw [he] at hne
      exact hne rfl
    · intro x hx
      refine okAuthChar_intro (fun he => hauth1 (he ▸ hx)) (fun he => hbq1 ?_)
        (fun he => hbh1 ?_)
      · exact he ▸ hauth2 x hx
      · exact he ▸ hbq2 x (hauth2 x hx)
    · intro x hx hm
      have : (splitFirst '?' bh).2 = some x := by rw [hbq, hx]
      exact hbh1 (splitFirst_snd_subset this '#' hm)

theorem parseAbsUrl_wf {s : Str} {u : Url} (h : parseAbsUrl s = some u) : u.wf = true := by
  unfold parseAbsUrl at h
  split at h
  · exact absurd h (by simp)
  · rename_i sch rest hts
    split at h
    · obtain ⟨h1, h2⟩ := takeScheme_out hts
      exact parseAuthority_wf h1 h2 h
    · exact absurd h (by simp)

theorem resolveRef_wf {r : Str} {base : Url} {u : Url} (hB : base.wf = true)
    (h : resolveRef r base = some u) : u.wf = true := by
  obtain ⟨hb1, hb2, hb3, hb4, hb5, hb6, hb7⟩ := wf_elim hB
  unfold resolveRef at h
  split at h
  · exact parseAbsUrl_wf h
  · split at h
    rename_i bh frag hbh
    split at h
    rename_i bq query hbq
    have hbh1 : '#' ∉ bh := by
      have := splitFirst_fst_not_mem (c := '#') (s := r)
      rwa [hbh] at this
    have hbq1 : '?' ∉ bq := by
      have := splitFirst_fst_not_mem (c := '?') (s := bh)
      rwa [hbq] at this
    have hbq2 : ∀ d ∈ bq, d ∈ bh := by
      intro d hd
      have := splitFirst_fst_subset (c := '?') (s := bh) d
      rw [hbq] at this
      exact this hd
    have hquery : ∀ x, query = some x → '#' ∉ x := by
      intro x hx hm
      have : (splitFirst '?' bh).2 = some x := by rw [hbq, hx]
      exact hbh1 (splitFirst_snd_subset this '#' hm)
    split at h
    · -- protocol-relative reference //host/path
      rename_i rest2
      split at h
      rename_i auth pathRest hauth
      split at h
      · exact absurd h (by simp)
      · rename_i hne
        simp only [Option.some.injEq] at h
        subst h
        have hrsub : ∀ d ∈ rest2, d ∈ '/' :: '/' :: rest2 := by
          intro d hd
          exact List.mem_cons_of_mem _ (List.mem_cons_of_mem _ hd)
        have hauth1 : '/' ∉ auth := by
          have := splitFirst_fst_not_mem (c := '/') (s := rest2)
          rwa [hauth] at this
        have hauth2 : ∀ d ∈ auth, d ∈ '/' :: '/' :: rest2 := by
          intro d hd
          have := splitFirst_fst_subset (c := '/') (s := rest2) d
          rw [hauth] at this
          exact hrsub d (this hd)
        have hprsub : ∀ x, pathRest = some x → ∀ d ∈ x, d ∈ '/' :: '/' :: rest2 := by
          intro x hx d hd
          have : (splitFirst '/' rest2).2 = some x := by rw [hauth, hx]
          exact hrsub d (splitFirst_snd_subset this d hd)
        obtain ⟨hpne, hpok⟩ := segsOfPathRest_ok hprsub hbq1 hbq2 hbh1
        obtain ⟨hn1, hn2⟩ := normSegs_path_ok hpok hpne
        refine wf_intro hb1 hb2 ?_ ?_ hn1 hn2 hquery
        · intro he; rw [he] at hne; exact hne rfl
        · intro x hx
          refine okAuthChar_intro (fun he => hauth1 (he ▸ hx)) (fun he => hbq1 ?_)
            (fun he => hbh1 ?_)
          · exact he ▸ hauth2 x hx
          · exact he ▸ hbq2 x (hauth2 x hx)
    · -- absolute path reference /path
      rename_i p hcon
      simp only [Option.some.injEq] at h
      subst h
      have hpsub : ∀ d ∈ p, d ∈ '/' :: p := fun d hd => List.mem_cons_of_mem _ hd
      have hsok := splitAllCh_segs_ok hpsub hbq1 hbq2 hbh1
      obtain ⟨hn1, hn2⟩ := normSegs_path_ok hsok (splitAllCh_ne_nil '/' p)
      exact wf_intro hb1 hb2 hb3 hb4 hn1 hn2 hquery
    · -- empty path reference: query or fragment only
      split at h
      · simp only [Option.some.injEq] at h
        subst h
        exact wf_intro hb1 hb2 hb3 hb4 hb5 hb6 hquery
      · split at h
        · simp only [Option.some.injEq] at h
          subst h
          exact wf_intro hb1 hb2 hb3 hb4 hb5 hb6 hb7
        · simp only [Option.some.injEq] at h
          subst h
          exact wf_intro hb1 hb2 hb3 hb4 hb5 hb6 hb7
    · -- relative path reference
      rename_i hnotcases
      split at h
      · exact absurd h (by simp)
      · simp only [Option.some.injEq] at h
        subst h
        have hpsub : ∀ d ∈ bq, d ∈ bq := fun d hd => hd
        have hsok := splitAllCh_segs_ok hpsub hbq1 hbq2 hbh1
        have hmerged : ∀ seg ∈ base.path.dropLast ++ splitAllCh '/' bq,
            ∀ c ∈ seg, okAuthChar c = true := by
          intro seg hseg
          rcases List.mem_append.1 hseg with h1 | h2
          · exact (hb6 seg (List.dropLast_subset _ h1)).1
          · exact hsok seg h2
        have hmne : base.path.dropLast ++ splitAllCh '/' bq ≠ [] := by
          intro he
          exact splitAllCh_ne_nil '/' bq (List.append_eq_nil.1 he).2
        obtain ⟨hn1, hn2⟩ := normSegs_path_ok hmerged hmne
        exact wf_intro hb1 hb2 hb3 hb4 hn1 hn2 hquery

theorem resolveRef_href {u : Url} (h : u.wf = true) (B : Url) :
    resolveRef u.href B = some u := by
  have hparse := parseAbsUrl_href h
  obtain ⟨h1, h2, _⟩ := wf_elim h
  cases hsch : u.scheme with
  | nil => rw [hsch] at h1; simp [schemeHeadOk] at h1
  | cons c0 rest0 =>
    have hc0 : 'a' ≤ c0 ∧ c0 ≤ 'z' := by
      rw [hsch] at h1; simpa [schemeHeadOk] using h1
    have hts : takeScheme u.href
        = some (u.scheme, '/' :: '/' ::
            (u.host ++ hrefPath u.path ++ qStr u.query ++ fStr u.frag)) := by
      show takeScheme (u.scheme ++ ':' :: '/' :: '/' ::
        (u.host ++ hrefPath u.path ++ qStr u.query ++ fStr u.frag)) = _
      rw [hsch]
      exact takeScheme_append _ rfl hc0 (by rw [← hsch]; exact h2)
    unfold resolveRef
    rw [hts]
    exact hparse

theorem startsWithL_ne_head {c d : Char} {p s : Str} (h : c ≠ d) :
    startsWithL (c :: p) (d :: s) = false := by
  simp [startsWithL, h]

/-- C7: for all references R and base URLs B such that the resolver of
`addResourceUrl` succeeds with an http(s) result, resolution is idempotent:
resolving the already-resolved absolute URL string against the same base
returns that same string. -/
theorem c7_resolveUrl_idempotent (R : Str) (B : Url) (hB : B.wf = true) (s : Str)
    (h : resolveUrl R B = some s) : resolveUrl s B = some s := by
  unfold resolveUrl at h
  split at h
  · exact absurd h (by simp)
  · split at h
    · rename_i u hres
      split at h
      · rename_i hhttp
        simp only [Option.some.injEq] at h
        subst h
        have hwf := resolveRef_wf hB hres
        have hr2 := resolveRef_href hwf B
        rcases (startsWithL_iff ['h', 't', 't', 'p'] u.href).1 hhttp with ⟨t, hts⟩
        have hts2 : u.href = 'h' :: 't' :: 't' :: 'p' :: t := hts
        rw [hts2] at hr2
        have e0 : ('h' :: 't' :: 't' :: 'p' :: t).isEmpty = false := rfl
        have e1 : startsWithL ['d', 'a', 't', 'a', ':'] ('h' :: 't' :: 't' :: 'p' :: t)
            = false := startsWithL_ne_head (by decide)
        have e2 : startsWithL ['#'] ('h' :: 't' :: 't' :: 'p' :: t) = false :=
          startsWithL_ne_head (by decide)
        have e3 : startsWithL ['m', 'a', 'i', 'l', 't', 'o', ':']
            ('h' :: 't' :: 't' :: 'p' :: t) = false := startsWithL_ne_head (by decide)
        have e4 : startsWithL ['t', 'e', 'l', ':'] ('h' :: 't' :: 't' :: 'p' :: t)
            = false := startsWithL_ne_head (by decide)
        unfold resolveUrl
        rw [hts2, hr2]
        simp only [e0, e1, e2, e3, e4, Bool.or_self, Bool.or_false, Bool.false_eq_true,
          if_false]
        rw [if_pos hhttp, hts2]
      · exact absurd h (by simp)
    · exact absurd h (by simp)

/-- A concrete well-formed base URL used by the witnesses. -/
def demoBase : Url :=
  { scheme := "https".data, host := "x.test".data, path := [[]],
    query := none, frag := none }

/-- Witness for C7 at a concrete reference and base. -/
theorem c7_resolveUrl_idempotent_witness :
    resolveUrl "../a/./b.js".data demoBase = some "https://x.test/a/b.js".data ∧
    resolveUrl "https://x.test/a/b.js".data demoBase
      = some "https://x.test/a/b.js".data :=
  ⟨by decide,
   c7_resolveUrl_idempotent "../a/./b.js".data demoBase (by decide)
     "https://x.test/a/b.js".data (by decide)⟩

/-- JS line terminators: characters that `.` in a regular expression never
matches and that delimit lines for the `$` anchor. -/
def isLineTerm (c : Char) : Bool :=
  c == '\n' || c == '\r' || c == ' ' || c == ' '

/-- `.replace(/^\//, '')`: strip one leading slash. -/
def stripLeadSlash (s : Str) : Str :=
  match s with
  | '/' :: r => r
  | s => s

/-- `.replace(/^webpack:\/\/[^/]*\//, '')`: strip a `webpack://<run of
non-slash characters>/` prefix (the class `[^/]*` stops at the first slash
after `webpack://`, so the prefix removed ends at that slash). -/
def stripWebpackHost (s : Str) : Str :=
  if startsWithL "webpack://".data s then
    match (splitFirst '/' (s.drop 10)).2 with
    | some rest => rest
    | none => s
  else s

/-- `.replace(/^webpack:\/\//, '')`: strip a bare `webpack://` prefix. -/
def stripWebpackBare (s : Str) : Str :=
  if startsWithL "webpack://".data s then s.drop 10 else s

/-- `.replace(/^\.\//, '')`: strip a leading `./`. -/
def stripDotSlash (s : Str) : Str :=
  if startsWithL "./".data s then s.drop 2 else s

/-- `.replace(/\?.*$/, '')`: remove the leftmost `?` from which `.*` reaches
the end of the string; `.` does not cross a line terminator and `$` (without
the `m` flag) anchors only at the end of input, so the removed suffix starts
at the first `?` that no line terminator follows. -/
def stripQueryTail : Str → Str
  | [] => []
  | c :: rest =>
    if c == '?' && rest.all (fun d => !isLineTerm d) then []
    else c :: stripQueryTail rest

/-- `.replace(/[<>:"|?*]/g, '_')`: replace every occurrence of the listed
characters by an underscore. -/
def replBad (s : Str) : Str :=
  s.map (fun c =>
    if c == '<' || c == '>' || c == ':' || c == '"' || c == '|' || c == '?' || c == '*'
    then '_' else c)

/-- `cleanSourcePath`, part_001 lines 620-628: the six replacements chained
in source order. -/
def cleanSourcePath (s : Str) : Str :=
  replBad (stripQueryTail (stripDotSlash (stripWebpackBare (stripWebpackHost
    (stripLeadSlash s)))))

/-- The `skipPatterns` array of `shouldExtractSource`, part_001 lines 608-615. -/
def skipPatterns : List Str :=
  ["webpack/".data, "node_modules/".data, "webpack:///".data, "(webpack)".data,
   "webpack/bootstrap".data, "webpack/runtime".data]

/-- `shouldExtractSource`, part_001 lines 604-618: falsy path or content is
rejected, then the raw source path is tested against `skipPatterns` with
`includes`. -/
def shouldExtractSource (sourcePath sourceContent : Str) : Bool :=
  if sourceContent.isEmpty || sourcePath.isEmpty then false
  else !(skipPatterns.any (fun pat => hasSub pat sourcePath))

/-- The advanced noise filter of `extractSourceFilesAdvanced`, part_003 lines
1088-1098: pattern part, applied to the cleaned path. -/
def advNoiseSkip (cleanPath : Str) : Bool :=
  hasSub "webpack/".data cleanPath ||
  hasSub "node_modules/".data cleanPath ||
  hasSub "webpack:///".data cleanPath ||
  startsWithL "(webpack)".data cleanPath ||
  hasSub "webpack/bootstrap".data cleanPath ||
  hasSub "webpack/runtime".data cleanPath ||
  hasSub "webpack-dev-server".data cleanPath ||
  hasSub "webpack-hot-middleware".data cleanPath ||
  hasSub "__webpack".data cleanPath ||
  startsWithL "(webpack".data cleanPath ||
  hasSub "webpack-internal://".data cleanPath

/-- The advanced noise filter of `extractSourceFilesAdvanced`, part_003 lines
1102-1105: empty or too-short cleaned paths. -/
def advEmptySkip (cleanPath : Str) : Bool :=
  cleanPath.isEmpty || cleanPath == ".".data || cleanPath == "..".data
    || decide (cleanPath.length < 2)

/-- The full discard decision of the advanced filter. -/
def advDiscard (cleanPath : Str) : Bool :=
  advNoiseSkip cleanPath || advEmptySkip cleanPath

/-- The `?`-stripping step exactly as claim C5 words it: strip everything
from the first `?` onward. -/
def specStripQueryNaive (s : Str) : Str := (splitFirst '?' s).1

/-- The path-cleaning pipeline exactly as claim C5 words it. -/
def cleanPathClaim (s : Str) : Str :=
  replBad (specStripQueryNaive (stripDotSlash (stripWebpackBare (stripWebpackHost
    (stripLeadSlash s)))))

/-- The `?`-stripping step as the amended claim words it: when the text after
the last line terminator contains a `?`, strip from the first such `?`
through the end of the string; otherwise leave the string unchanged. -/
def specStripQueryAmended (s : Str) : Str :=
  if ((s.reverse.takeWhile (fun c => !isLineTerm c)).reverse).contains '?' then
    (s.reverse.dropWhile (fun c => !isLineTerm c)).reverse
      ++ (splitFirst '?' ((s.reverse.takeWhile (fun c => !isLineTerm c)).reverse)).1
  else s

theorem stripQueryTail_no_q {s : Str} (h : '?' ∉ s) : stripQueryTail s = s := by
  induction s with
  | nil => rfl
  | cons c rest ih =>
    have hc : (c == '?') = false := by
      simp only [beq_eq_false_iff_ne, ne_eq]
      intro he
      exact h (he ▸ List.mem_cons_self c rest)
    simp only [stripQueryTail, hc, Bool.false_and, Bool.false_eq_true, if_false]
    rw [ih (fun hm => h (List.mem_cons_of_mem _ hm))]

theorem stripQueryTail_no_term {s : Str} (h : ∀ d ∈ s, isLineTerm d = false) :
    stripQueryTail s = (splitFirst '?' s).1 := by
  induction s with
  | nil => rfl
  | cons c rest ih =>
    have hall : rest.all (fun d => !isLineTerm d) = true := by
      simp only [List.all_eq_true, Bool.not_eq_true']
      exact fun d hd => h d (List.mem_cons_of_mem _ hd)
    by_cases hc : c = '?'
    · subst hc
      simp [stripQueryTail, hall, splitFirst]
    · have hcq : (c == '?' && rest.all (fun d => !isLineTerm d)) = false := by
        simp [hc]
      simp only [stripQueryTail, hcq, Bool.false_eq_true, if_false]
      simp only [splitFirst, if_neg hc]
      rw [ih (fun d hd => h d (List.mem_cons_of_mem _ hd))]

theorem stripQueryTail_append_term {a : Str} {t : Char} (b : Str)
    (ht : isLineTerm t = true) :
    stripQueryTail (a ++ t :: b) = a ++ t :: stripQueryTail b := by
  induction a with
  | nil =>
    have hterm : (t :: b).all (fun d => !isLineTerm d) = false := by
      rw [List.all_eq_false]
      exact ⟨t, List.mem_cons_self _ _, by simp [ht]⟩
    have ht' : (t == '?') = false := by
      have : t ≠ '?' := by
        intro he
        rw [he] at ht
        exact absurd ht (by decide)
      simpa using this
    simp only [List.nil_append, stripQueryTail, ht', Bool.false_and, Bool.false_eq_true,
      if_false]
  | cons c rest ih =>
    show stripQueryTail (c :: (rest ++ t :: b)) = _
    have hallf : ((rest ++ t :: b).all (fun d => !isLineTerm d)) = false := by
      rw [List.all_eq_false]
      exact ⟨t, List.mem_append.2 (Or.inr (List.mem_cons_self _ _)), by simp [ht]⟩
    have hfail : (c == '?' && (rest ++ t :: b).all (fun d => !isLineTerm d)) = false := by
      rw [hallf]
      simp
    simp only [stripQueryTail, hfail, Bool.false_eq_true, if_false]
    rw [ih]
    rfl

/-- The faithful `?`-strip agrees with the amended last-line description on
every string. -/
theorem stripQueryTail_eq_amended (s : Str) :
    stripQueryTail s = specStripQueryAmended s := by
  by_cases hterm : ∀ d ∈ s, isLineTerm d = false
  · have htake : s.reverse.takeWhile (fun c => !isLineTerm c) = s.reverse := by
      rw [List.takeWhile_eq_self_iff]
      intro x hx
      simp [hterm x (List.mem_reverse.1 hx)]
    have hdrop : s.reverse.dropWhile (fun c => !isLineTerm c) = [] := by
      rw [List.dropWhile_eq_nil_iff]
      intro x hx
      simp [hterm x (List.mem_reverse.1 hx)]
    unfold specStripQueryAmended
    rw [htake, hdrop, List.reverse_reverse]
    by_cases hq : '?' ∈ s
    · rw [if_pos (List.elem_iff.2 hq)]
      simp only [List.reverse_nil, List.nil_append]
      exact stripQueryTail_no_term hterm
    · rw [if_neg (fun hc => hq (List.elem_iff.1 hc))]
      exact stripQueryTail_no_q hq
  · -- the string has a line terminator: split it at the last one
    have hD : s.reverse.dropWhile (fun c => !isLineTerm c) ≠ [] := by
      intro he
      rw [List.dropWhile_eq_nil_iff] at he
      push_neg at hterm
      obtain ⟨d, hd, hdt⟩ := hterm
      have := he d (List.mem_reverse.2 hd)
      rw [Bool.not_eq_true'] at this
      rw [this] at hdt
      exact hdt rfl
    obtain ⟨t, v, hDw⟩ : ∃ t v, s.reverse.dropWhile (fun c => !isLineTerm c) = t :: v := by
      cases hDd : s.reverse.dropWhile (fun c => !isLineTerm c) with
      | nil => exact absurd hDd hD
      | cons t v => exact ⟨t, v, rfl⟩
    have hthead : isLineTerm t = true := by
      have hw : s.reverse.dropWhile (fun c => !isLineTerm c) ≠ [] := by
        rw [hDw]; simp
      have h2 := List.head_dropWhile_not (fun c => !isLineTerm c) s.reverse hw
      simp only [hDw, List.head_cons] at h2
      simpa using h2
    have hAterm : ∀ d ∈ (s.reverse.takeWhile (fun c => !isLineTerm c)).reverse,
        isLineTerm d = false := by
      intro d hd
      have h3 : d ∈ s.reverse.takeWhile (fun c => !isLineTerm c) := List.mem_reverse.1 hd
      have := List.mem_takeWhile_imp h3
      simpa using this
    have hAall : ∀ x ∈ s.reverse.takeWhile (fun c => !isLineTerm c),
        (!isLineTerm x) = true := by
      intro x hx
      exact @List.mem_takeWhile_imp Char (fun c => !isLineTerm c) _ _ hx
    have hs : s = v.reverse ++ t ::
        (s.reverse.takeWhile (fun c => !isLineTerm c)).reverse := by
      have h1 : s.reverse.takeWhile (fun c => !isLineTerm c)
          ++ s.reverse.dropWhile (fun c => !isLineTerm c) = s.reverse :=
        List.takeWhile_append_dropWhile _ _
      have h2 : s = (s.reverse.takeWhile (fun c => !isLineTerm c)
          ++ (t :: v)).reverse := by
        rw [← hDw, h1, List.reverse_reverse]
      conv_lhs => rw [h2]
      simp
    rw [hs]
    rw [stripQueryTail_append_term _ hthead]
    unfold specStripQueryAmended
    have hrev : (v.reverse ++ t ::
        (s.reverse.takeWhile (fun c => !isLineTerm c)).reverse).reverse
        = s.reverse.takeWhile (fun c => !isLineTerm c) ++ t :: v := by
      simp
    have htk : (s.reverse.takeWhile (fun c => !isLineTerm c) ++ t :: v).takeWhile
        (fun c => !isLineTerm c) = s.reverse.takeWhile (fun c => !isLineTerm c) :=
      takeWhile_append_stop _ hAall (by simp [hthead])
    have hdw : (s.reverse.takeWhile (fun c => !isLineTerm c) ++ t :: v).dropWhile
        (fun c => !isLineTerm c) = t :: v :=
      dropWhile_append_stop _ hAall (by simp [hthead])
    rw [hrev, htk, hdw]
    by_cases hq : '?' ∈ (s.reverse.takeWhile (fun c => !isLineTerm c)).reverse
    · rw [if_pos (List.elem_iff.2 hq)]
      rw [stripQueryTail_no_term hAterm]
      simp
    · rw [if_neg (fun hc => hq (List.elem_iff.1 hc))]
      rw [stripQueryTail_no_q hq]

theorem stripLeadSlash_subset (s : Str) : ∀ d ∈ stripLeadSlash s, d ∈ s := by
  intro d hd
  unfold stripLeadSlash at hd
  split at hd
  · exact List.mem_cons_of_mem _ hd
  · exact hd

theorem stripWebpackHost_subset (s : Str) : ∀ d ∈ stripWebpackHost s, d ∈ s := by
  intro d hd
  unfold stripWebpackHost at hd
  split at hd
  · split at hd
    · rename_i rest hrest
      exact List.drop_subset 10 s (splitFirst_snd_subset hrest d hd)
    · exact hd
  · exact hd

theorem stripWebpackBare_subset (s : Str) : ∀ d ∈ stripWebpackBare s, d ∈ s := by
  intro d hd
  unfold stripWebpackBare at hd
  split at hd
  · exact List.drop_subset 10 s hd
  · exact hd

theorem stripDotSlash_subset (s : Str) : ∀ d ∈ stripDotSlash s, d ∈ s := by
  intro d hd
  unfold stripDotSlash at hd
  split at hd
  · exact List.drop_subset 2 s hd
  · exact hd

/-- On paths without a line terminator, the faithful pipeline agrees with the
claim's naive description of the `?` step. -/
theorem cleanSourcePath_eq_claim_of_no_term {s : Str}
    (h : ∀ d ∈ s, isLineTerm d = false) : cleanSourcePath s = cleanPathClaim s := by
  unfold cleanSourcePath cleanPathClaim
  congr 1
  apply stripQueryTail_no_term
  intro d hd
  exact h d (stripLeadSlash_subset s d (stripWebpackHost_subset _ d
    (stripWebpackBare_subset _ d (stripDotSlash_subset _ d hd))))

/-- The discard conditions exactly as claim C6 lists them. -/
def c6ClaimDiscard (p : Str) : Bool :=
  hasSub "webpack/".data p || hasSub "node_modules/".data p ||
  hasSub "webpack:///".data p || hasSub "webpack/bootstrap".data p ||
  hasSub "webpack/runtime".data p || hasSub "webpack-dev-server".data p ||
  hasSub "webpack-hot-middleware".data p || hasSub "__webpack".data p ||
  hasSub "webpack-internal://".data p || startsWithL "(webpack)".data p ||
  p.isEmpty || decide (p.length < 2)

/-- The discard conditions as the amended claim lists them: the claim's list
plus the two conditions the code adds, a bare `(webpack` prefix and the
literal path `..`. -/
def c6AmendedDiscard (p : Str) : Bool :=
  c6ClaimDiscard p || startsWithL "(webpack".data p || p == "..".data

/-- The advanced filter's discard decision is the amended claim's list: the
two differ only by reordering of the disjuncts (the path `.` the code also
names is already shorter than 2 characters). -/
theorem advDiscard_eq_c6Amended (p : Str) : advDiscard p = c6AmendedDiscard p := by
  by_cases hdot : p = ['.']
  · subst hdot; decide
  · have h1 : (p == ".".data) = false := by
      rw [show ".".data = ['.'] from rfl]
      simpa using hdot
    unfold advDiscard advNoiseSkip advEmptySkip c6AmendedDiscard c6ClaimDiscard
    rw [h1]
    apply Bool.coe_iff_coe.1
    simp only [Bool.or_eq_true, Bool.false_eq_true, or_false]
    tauto

/-- A stored payload: decoded text or an opaque binary buffer. -/
inductive Content where
  | txt (s : Str)
  | buf (bytes : List Nat)
deriving DecidableEq

/-- `getContentSize`, part_001 lines 796-798: `content.length ||
content.byteLength || 0` (an empty string falls through to 0). -/
def getContentSize : Content → Nat
  | Content.txt s => s.length
  | Content.buf b => b.length

/-- One record of the `downloadedFiles` map; call sites pass different field
subsets, absent fields are `none`. -/
structure FileRec where
  content : Content
  size : Nat
  ftype : Str
  url : Option Str
  contentType : Option Str
  originalPath : Option Str
deriving DecidableEq

/-- Running statistics, part_001 `resetStats`. -/
structure Stats where
  totalFiles : Nat
  sourceFiles : Nat
  jsFiles : Nat
  cssFiles : Nat
  imageFiles : Nat
  totalSize : Nat
deriving DecidableEq

def stats0 : Stats := ⟨0, 0, 0, 0, 0, 0⟩

/-- The downloader's session state: the cancellation flag, the catalog
(`downloadedFiles`, a JS `Map` as an insertion-ordered association list),
the visited set and the statistics. -/
structure St where
  isDownloading : Bool
  downloadedFiles : List (Str × FileRec)
  downloadedUrls : List Str
  stats : Stats
deriving DecidableEq

/-- JS `Map.prototype.get` on the catalog. -/
def lookupF (files : List (Str × FileRec)) (k : Str) : Option FileRec :=
  match files.find? (fun p => p.1 == k) with
  | some p => some p.2
  | none => none

/-- JS `Map.prototype.has` on the catalog. -/
def hasKey (files : List (Str × FileRec)) (k : Str) : Bool := (lookupF files k).isSome

/-- JS `Map.prototype.set`: update in place when the key exists (insertion
order kept), append otherwise. -/
def mapSet (files : List (Str × FileRec)) (k : Str) (v : FileRec) :
    List (Str × FileRec) :=
  if hasKey files k then files.map (fun p => if p.1 == k then (k, v) else p)
  else files ++ [(k, v)]

/-- `saveFile`, part_001 lines 753-769: unconditional `Map.set` followed by
the statistics update. -/
def saveFile (filename : Str) (fileData : FileRec) (st : St) : St :=
  { st with
    downloadedFiles := mapSet st.downloadedFiles filename fileData,
    stats :=
      let s1 := { st.stats with
        totalFiles := st.stats.totalFiles + 1,
        totalSize := st.stats.totalSize + fileData.size }
      if startsWithL "src/".data filename then
        { s1 with sourceFiles := s1.sourceFiles + 1 }
      else if endsWithL ".js".data filename then
        { s1 with jsFiles := s1.jsFiles + 1 }
      else if endsWithL ".css".data filename then
        { s1 with cssFiles := s1.cssFiles + 1 }
      else if fileData.ftype == "image".data then
        { s1 with imageFiles := s1.imageFiles + 1 }
      else s1 }

/-- `getFileExtension`, part_003 lines 899-902. -/
def getFileExtension (filename : Str) : Str :=
  let parts := splitAllCh '.' filename
  if 1 < parts.length then '.' :: parts.getLastD [] else []

/-- One candidate name of the part_003 collision loop:
`${base}_${counter}${ext}`. -/
def candName (base ext : Str) (n : Nat) : Str := base ++ '_' :: (natStr n ++ ext)

/-- The `while (has(finalFilename))` loop of part_003 lines 1111-1118, with
fuel (the loop terminates because candidate names are pairwise distinct). -/
def findFreeName (files : List (Str × FileRec)) (base ext : Str) : Nat → Nat → Str
  | 0, c => candName base ext c
  | f + 1, c =>
    if hasKey files (candName base ext c) then findFreeName files base ext f (c + 1)
    else candName base ext c

/-- The collision-safe name computation of `extractSourceFilesAdvanced`,
part_003 lines 1110-1118: keep the name when free, otherwise try
`base_1ext, base_2ext, ...` where `ext` is `getFileExtension` of the original
name and `base` is the original name with the first occurrence of `ext`
removed (`filename.replace(ext, '')`). -/
def uniqueFilename (files : List (Str × FileRec)) (filename : Str) : Str :=
  if hasKey files filename then
    findFreeName files (jsReplaceFirst (getFileExtension filename) [] filename)
      (getFileExtension filename) (files.length + 1) 1
  else filename

theorem candName_inj {base ext : Str} {m n : Nat}
    (h : candName base ext m = candName base ext n) : m = n := by
  unfold candName at h
  have h1 := List.append_cancel_left h
  injection h1 with _ h2
  exact natStr_inj (List.append_cancel_right h2)

theorem hasKey_iff_mem {files : List (Str × FileRec)} {k : Str} :
    hasKey files k = true ↔ k ∈ files.map Prod.fst := by
  unfold hasKey lookupF
  constructor
  · intro h
    cases hf : files.find? (fun p => p.1 == k) with
    | none => rw [hf] at h; simp at h
    | some p =>
      have := List.find?_some hf
      have hm := List.mem_of_find?_eq_some hf
      simp only [beq_iff_eq] at this
      exact this ▸ List.mem_map_of_mem Prod.fst hm
  · intro h
    rcases List.mem_map.1 h with ⟨p, hp, hpk⟩
    cases hf : files.find? (fun q => q.1 == k) with
    | none =>
      have := List.find?_eq_none.1 hf p hp
      simp only [beq_iff_eq] at this
      exact absurd hpk this
    | some q => simp [hf]

theorem findFreeName_spec (files : List (Str × FileRec)) (base ext : Str) :
    ∀ f c, (∃ j, j < f ∧ hasKey files (candName base ext (c + j)) = false) →
      ∃ j, j < f ∧ findFreeName files base ext f c = candName base ext (c + j) ∧
        hasKey files (candName base ext (c + j)) = false ∧
        ∀ i, i < j → hasKey files (candName base ext (c + i)) = true := by
  intro f
  induction f with
  | zero =>
    intro c ⟨j, hj, _⟩
    omega
  | succ f ih =>
    intro c ⟨j, hj, hfree⟩
    by_cases h0 : hasKey files (candName base ext c) = true
    · have hj0 : j ≠ 0 := by
        intro he
        rw [he] at hfree
        simp only [Nat.add_zero] at hfree
        rw [h0] at hfree
        exact absurd hfree (by simp)
      have hex : ∃ j2, j2 < f ∧ hasKey files (candName base ext (c + 1 + j2)) = false := by
        refine ⟨j - 1, by omega, ?_⟩
        have : c + 1 + (j - 1) = c + j := by omega
        rw [this]
        exact hfree
      obtain ⟨j2, hj2, heq, hfree2, hmin⟩ := ih (c + 1) hex
      refine ⟨j2 + 1, by omega, ?_, ?_, ?_⟩
      · simp only [findFreeName, h0, if_true]
        rw [heq]
        congr 1
        omega
      · have : c + (j2 + 1) = c + 1 + j2 := by omega
        rw [this]
        exact hfree2
      · intro i hi
        cases i with
        | zero => simpa using h0
        | succ i =>
          have : c + (i + 1) = c + 1 + i := by omega
          rw [this]
          exact hmin i (by omega)
    · rw [Bool.not_eq_true] at h0
      refine ⟨0, by omega, ?_, by simpa using h0, by omega⟩
      simp only [findFreeName, h0, Bool.false_eq_true, if_false]
      rw [Nat.add_zero]

theorem exists_free_cand (files : List (Str × FileRec)) (base ext : Str) (c : Nat) :
    ∃ j, j < files.length + 1 ∧ hasKey files (candName base ext (c + j)) = false := by
  by_contra hcon
  push_neg at hcon
  have hall : ∀ j, j < files.length + 1 → hasKey files (candName base ext (c + j)) = true := by
    intro j hj
    have := hcon j hj
    cases hb : hasKey files (candName base ext (c + j)) with
    | false => exact absurd hb this
    | true => rfl
  have hinj : Function.Injective (fun j => candName base ext (c + j)) := by
    intro a b hab
    have := candName_inj hab
    omega
  have hnd : ((List.range (files.length + 1)).map
      (fun j => candName base ext (c + j))).Nodup :=
    (List.nodup_range _).map hinj
  have hsub : ((List.range (files.length + 1)).map
      (fun j => candName base ext (c + j))).toFinset ⊆ (files.map Prod.fst).toFinset := by
    intro x hx
    rw [List.mem_toFinset] at hx ⊢
    rcases List.mem_map.1 hx with ⟨j, hj, hjx⟩
    rw [List.mem_range] at hj
    exact hjx ▸ hasKey_iff_mem.1 (hall j hj)
  have hcard1 : ((List.range (files.length + 1)).map
      (fun j => candName base ext (c + j))).toFinset.card = files.length + 1 := by
    rw [List.toFinset_card_of_nodup hnd]
    simp
  have hcard2 := Finset.card_le_card hsub
  have hcard3 := List.toFinset_card_le (files.map Prod.fst)
  simp only [List.length_map] at hcard3
  omega

/-- The name the part_003 loop stores under is never an existing key. -/
theorem uniqueFilename_free (files : List (Str × FileRec)) (filename : Str) :
    hasKey files (uniqueFilename files filename) = false := by
  unfold uniqueFilename
  by_cases h : hasKey files filename = true
  · rw [if_pos h]
    obtain ⟨j, hj, heq, hfree, _⟩ := findFreeName_spec files _ _ (files.length + 1) 1
      (exists_free_cand files _ _ 1)
    rw [heq]
    exact hfree
  · rw [Bool.not_eq_true] at h
    rw [if_neg (by rw [h]; simp)]
    exact h

/-- When the name collides, the stored name is `base_Next` for the least
counter `N ≥ 1` whose candidate is unused. -/
theorem uniqueFilename_shape (files : List (Str × FileRec)) (filename : Str)
    (h : hasKey files filename = true) :
    ∃ n, 1 ≤ n ∧
      uniqueFilename files filename
        = candName (jsReplaceFirst (getFileExtension filename) [] filename)
            (getFileExtension filename) n ∧
      hasKey files (candName (jsReplaceFirst (getFileExtension filename) [] filename)
            (getFileExtension filename) n) = false ∧
      ∀ m, 1 ≤ m → m < n →
        hasKey files (candName (jsReplaceFirst (getFileExtension filename) [] filename)
            (getFileExtension filename) m) = true := by
  obtain ⟨j, hj, heq, hfree, hmin⟩ := findFreeName_spec files
    (jsReplaceFirst (getFileExtension filename) [] filename)
    (getFileExtension filename) (files.length + 1) 1
    (exists_free_cand files _ _ 1)
  refine ⟨1 + j, by omega, ?_, hfree, ?_⟩
  · unfold uniqueFilename
    rw [if_pos h]
    exact heq
  · intro m hm1 hmj
    have := hmin (m - 1) (by omega)
    have he : 1 + (m - 1) = m := by omega
    rwa [he] at this

theorem lookupF_cons (p : Str × FileRec) (rest : List (Str × FileRec)) (k : Str) :
    lookupF (p :: rest) k = if p.1 == k then some p.2 else lookupF rest k := by
  unfold lookupF
  rw [List.find?_cons]
  cases hp : p.1 == k <;> simp [hp]

theorem lookupF_nil (k : Str) : lookupF [] k = none := rfl

theorem lookupF_append (a b : List (Str × FileRec)) (k : Str) :
    lookupF (a ++ b) k = (lookupF a k).or (lookupF b k) := by
  unfold lookupF
  rw [List.find?_append]
  cases ha : a.find? (fun p => p.1 == k) <;> simp

theorem hasKey_false_lookupF {files : List (Str × FileRec)} {k : Str}
    (h : hasKey files k = false) : lookupF files k = none := by
  unfold hasKey at h
  cases hl : lookupF files k with
  | none => rfl
  | some v => rw [hl] at h; simp at h

theorem lookupF_mapSet_self (files : List (Str × FileRec)) (k : Str) (v : FileRec) :
    lookupF (mapSet files k v) k = some v := by
  unfold mapSet
  by_cases h : hasKey files k = true
  · rw [if_pos h]
    induction files with
    | nil => simp [hasKey, lookupF] at h
    | cons p rest ih =>
      by_cases hp : p.1 == k
      · simp only [List.map_cons, hp, if_pos rfl]
        rw [lookupF_cons]
        simp
      · have hp' : (p.1 == k) = false := by simpa using hp
        simp only [List.map_cons, hp', Bool.false_eq_true, if_false]
        rw [lookupF_cons, if_neg (by simp [hp'])]
        apply ih
        unfold hasKey at h ⊢
        rw [lookupF_cons, if_neg (by simp [hp'])] at h
        exact h
  · rw [Bool.not_eq_true] at h
    rw [if_neg (by rw [h]; simp)]
    rw [lookupF_append, hasKey_false_lookupF h]
    simp [lookupF_cons]

theorem lookupF_mapSet_other (files : List (Str × FileRec)) (k : Str) (v : FileRec)
    {q : Str} (hq : q ≠ k) : lookupF (mapSet files k v) q = lookupF files q := by
  unfold mapSet
  by_cases h : hasKey files k = true
  · rw [if_pos h]
    induction files with
    | nil => rfl
    | cons p rest ih =>
      by_cases hp : p.1 == k
      · have hpk : p.1 = k := by simpa using hp
        simp only [List.map_cons, hp, if_pos rfl]
        rw [lookupF_cons, lookupF_cons]
        have h1 : (k == q) = false := by
          simpa using fun he => hq he.symm
        have h2 : (p.1 == q) = false := by
          rw [hpk]; simpa using fun he => hq he.symm
        rw [if_neg (by simp [h1]), if_neg (by simp [h2])]
        by_cases hrest : hasKey rest k = true
        · exact ih hrest
        · -- the tail has no key k: mapping it changes nothing
          rw [Bool.not_eq_true] at hrest
          have hnone := hasKey_false_lookupF hrest
          unfold lookupF at hnone
          have hfind : rest.find? (fun p => p.1 == k) = none := by
            cases hf : rest.find? (fun p => p.1 == k) with
            | none => rfl
            | some x => rw [hf] at hnone; simp at hnone
          have hid : ∀ p' ∈ rest, (if p'.1 == k then (k, v) else p') = p' := by
            intro p' hp'
            have := List.find?_eq_none.1 hfind p' hp'
            simp only [Bool.not_eq_true] at this
            simp [this]
          have hmap : rest.map (fun p => if p.1 == k then (k, v) else p) = rest := by
            conv_rhs => rw [← List.map_id rest]
            exact List.map_congr_left hid
          rw [hmap]
      · have hp' : (p.1 == k) = false := by simpa using hp
        simp only [List.map_cons, hp', Bool.false_eq_true, if_false]
        rw [lookupF_cons, lookupF_cons]
        by_cases hpq : p.1 == q
        · simp [hpq]
        · have hpq' : (p.1 == q) = false := by simpa using hpq
          rw [if_neg (by simp [hpq']), if_neg (by simp [hpq'])]
          apply ih
          unfold hasKey at h ⊢
          rw [lookupF_cons, if_neg (by simp [hp'])] at h
          exact h
  · rw [Bool.not_eq_true] at h
    rw [if_neg (by rw [h]; simp)]
    rw [lookupF_append]
    have h1 : (k == q) = false := by simpa using fun he => hq he.symm
    rw [show lookupF [(k, v)] q = none by rw [lookupF_cons, if_neg (by simp [h1])]; rfl]
    cases lookupF files q <;> simp

theorem mapSet_fresh {files : List (Str × FileRec)} {k : Str} (v : FileRec)
    (h : hasKey files k = false) : mapSet files k v = files ++ [(k, v)] := by
  unfold mapSet
  rw [if_neg (by rw [h]; simp)]

theorem hasKey_mapSet_mono (files : List (Str × FileRec)) (k : Str) (v : FileRec)
    (q : Str) (h : hasKey files q = true) : hasKey (mapSet files k v) q = true := by
  by_cases hqk : q = k
  · subst hqk
    unfold hasKey
    rw [lookupF_mapSet_self]
    rfl
  · unfold hasKey
    rw [lookupF_mapSet_other files k v hqk]
    exact h

theorem nodup_keys_mapSet_fresh {files : List (Str × FileRec)} {k : Str} (v : FileRec)
    (hfresh : hasKey files k = false) (hnd : (files.map Prod.fst).Nodup) :
    ((mapSet files k v).map Prod.fst).Nodup := by
  rw [mapSet_fresh v hfresh, List.map_append]
  have hk : k ∉ files.map Prod.fst := fun hm => by
    rw [hasKey_iff_mem.2 hm] at hfresh
    exact absurd hfresh (by simp)
  simp only [List.map_cons, List.map_nil]
  rw [List.nodup_append]
  exact ⟨hnd, List.nodup_singleton k, by
    intro a ha hb
    simp only [List.mem_singleton] at hb
    exact hk (hb ▸ ha)⟩

/-- part_003's collision-safe insertion: compute the unique name, then
`Map.set`. -/
def setUnique (files : List (Str × FileRec)) (filename : Str) (v : FileRec) :
    List (Str × FileRec) :=
  mapSet files (uniqueFilename files filename) v

/-- Outcome of the direct `fetch(url, ...)` call as the browser reports it:
network-level failure (the promise rejects) or a response with a status, a
content-type header and a body. -/
inductive DirectOutcome where
  | netFail
  | resp (status : Nat) (contentType : Option Str) (textBody : Str) (bufBody : List Nat)
deriving DecidableEq

/-- Outcome of the proxy `fetch`: network failure, or a response whose JSON
envelope either parses to a `contents` payload or fails to parse (`none`). -/
inductive ProxyOutcome where
  | netFail
  | resp (status : Nat) (contents : Option Str)
deriving DecidableEq

/-- JS `Response.ok`: status in 200..299. -/
def okStatus (status : Nat) : Bool := decide (200 ≤ status) && decide (status ≤ 299)

/-- The response shape `fetchWithCORS` hands to its callers; `viaRelay` is
bookkeeping recording which transport produced it. -/
structure JsResponse where
  ok : Bool
  status : Nat
  contentType : Option Str
  textBody : Str
  bufBody : List Nat
  viaRelay : Bool
deriving DecidableEq

/-- The error `fetchWithCORS` throws: "Both direct fetch and CORS proxy
failed: ..." wrapping either "Proxy returned N" (`some N`) or the proxy's
network/parse error (`none`). -/
inductive FetchErr where
  | bothFailed (proxyStatus : Option Nat)
deriving DecidableEq

/-- UTF-8 encoding of one character (`TextEncoder`). -/
def utf8Char (c : Char) : List Nat :=
  let n := c.toNat
  if n < 128 then [n]
  else if n < 2048 then [192 + n / 64, 128 + n % 64]
  else if n < 65536 then [224 + n / 4096, 128 + (n / 64) % 64, 128 + n % 64]
  else [240 + n / 262144, 128 + (n / 4096) % 64, 128 + (n / 64) % 64, 128 + n % 64]

/-- `new TextEncoder().encode(...)`. -/
def utf8Bytes (s : Str) : List Nat := (s.map utf8Char).flatten

/-- The proxy fallback of `fetchWithCORS`, part_001 lines 724-746: a non-ok
proxy response throws `Proxy returned N`; otherwise the JSON envelope's
`contents` field becomes the body of a synthetic response reporting
`ok: true`, `status: 200` and a `text/plain` content type. -/
def relayFetch : ProxyOutcome → Except FetchErr JsResponse
  | ProxyOutcome.netFail => Except.error (FetchErr.bothFailed none)
  | ProxyOutcome.resp status contents =>
    if !okStatus status then Except.error (FetchErr.bothFailed (some status))
    else
      match contents with
      | none => Except.error (FetchErr.bothFailed none)
      | some s =>
        Except.ok { ok := true, status := 200, contentType := some "text/plain".data,
                    textBody := s, bufBody := utf8Bytes s, viaRelay := true }

/-- `fetchWithCORS`, part_001 lines 707-747: return the direct response only
when it is `ok`; on a non-ok status OR a network failure fall through to the
proxy. -/
def fetchWithCORS (direct : DirectOutcome) (proxy : ProxyOutcome) :
    Except FetchErr JsResponse :=
  match direct with
  | DirectOutcome.resp status ct tb bb =>
    if okStatus status then
      Except.ok { ok := true, status := status, contentType := ct, textBody := tb,
                  bufBody := bb, viaRelay := false }
    else relayFetch proxy
  | DirectOutcome.netFail => relayFetch proxy

/-- `getContentType`, part_001 lines 775-780: the content-type header or
`application/octet-stream` when absent or empty (JS `||`). -/
def getContentType (r : JsResponse) : Str :=
  match r.contentType with
  | some ct => if ct.isEmpty then "application/octet-stream".data else ct
  | none => "application/octet-stream".data

/-- `getResponseContent`, part_001 lines 782-795: text when the content type
mentions text, javascript, json or css; a binary buffer otherwise. -/
def getResponseContent (r : JsResponse) (contentType : Str) : Content :=
  if hasSub "text".data contentType || hasSub "javascript".data contentType
      || hasSub "json".data contentType || hasSub "css".data contentType then
    Content.txt r.textBody
  else Content.buf r.bufBody

/-- A parsed source map; a JSON `null` inside `sources`/`sourcesContent` is
modelled as the empty string, which the source treats identically (both are
falsy and only falsiness is ever tested before use). -/
structure SMap where
  sources : Option (List Str)
  sourcesContent : Option (List Str)
  sourceRoot : Option Str
deriving DecidableEq

/-- The record stored for one extracted source file (part_001 lines 584-590). -/
def mkSourceRec (pr : Str × Str) : FileRec :=
  { content := Content.txt pr.2, size := pr.2.length, ftype := "source".data,
    url := none, contentType := none, originalPath := some pr.1 }

/-- `extractSourceFilesFromMap`, part_001 lines 563-602: nothing is extracted
unless both `sources` and `sourcesContent` are present; otherwise the arrays
are walked by index, pairing `sources[i]` with `sourcesContent[i]`. -/
def extractSourceFilesFromMap (m : SMap) (st : St) : St × Nat :=
  match m.sources, m.sourcesContent with
  | some srcs, some cont =>
    (List.range srcs.length).foldl (fun acc i =>
      if shouldExtractSource (srcs.getD i []) (cont.getD i []) then
        (saveFile ("src/".data ++ cleanSourcePath (srcs.getD i []))
          (mkSourceRec (srcs.getD i [], cont.getD i [])) acc.1, acc.2 + 1)
      else acc) (st, 0)
  | _, _ => (st, 0)

/-- The index pairs that survive the filter, in order. -/
def extractedPairs (m : SMap) : List (Str × Str) :=
  match m.sources, m.sourcesContent with
  | some srcs, some cont =>
    (List.range srcs.length).filterMap (fun i =>
      if shouldExtractSource (srcs.getD i []) (cont.getD i []) then
        some (srcs.getD i [], cont.getD i [])
      else none)
  | _, _ => []

theorem foldl_filterMap_count {α β : Type} (p : α → Bool) (f : α → β)
    (save : St → β → St) :
    ∀ (l : List α) (st : St) (n : Nat),
      l.foldl (fun acc a => if p a then (save acc.1 (f a), acc.2 + 1) else acc) (st, n)
        = ((l.filterMap (fun a => if p a then some (f a) else none)).foldl save st,
           n + (l.filterMap (fun a => if p a then some (f a) else none)).length) := by
  intro l
  induction l with
  | nil => intro st n; simp
  | cons a rest ih =>
    intro st n
    by_cases hp : p a = true
    · have h1 : (if p a = true then (save st (f a), n + 1) else (st, n))
          = (save st (f a), n + 1) := by rw [if_pos hp]
      have h2 : (if p a = true then some (f a) else none) = some (f a) := by
        rw [if_pos hp]
      simp only [List.foldl_cons, List.filterMap_cons, h1, h2]
      rw [ih]
      simp only [List.foldl_cons, List.length_cons]
      congr 1
      omega
    · rw [Bool.not_eq_true] at hp
      simp only [List.foldl_cons, List.filterMap_cons, hp, Bool.false_eq_true, if_false]
      exact ih st n

/-- The by-index walk of part_001 equals a fold of `saveFile` over the
filtered, positionally-paired list. -/
theorem extractSourceFilesFromMap_eq (m : SMap) (st : St) :
    extractSourceFilesFromMap m st
      = ((extractedPairs m).foldl
          (fun s pr => saveFile ("src/".data ++ cleanSourcePath pr.1) (mkSourceRec pr) s)
          st,
         (extractedPairs m).length) := by
  unfold extractSourceFilesFromMap extractedPairs
  cases hs : m.sources with
  | none => rfl
  | some srcs =>
    cases hc : m.sourcesContent with
    | none => rfl
    | some cont =>
      have := foldl_filterMap_count
        (fun i => shouldExtractSource (srcs.getD i []) (cont.getD i []))
        (fun i => (srcs.getD i [], cont.getD i []))
        (fun s pr => saveFile ("src/".data ++ cleanSourcePath pr.1) (mkSourceRec pr) s)
        (List.range srcs.length) st 0
      simpa using this

/-- JS `||` on a string-valued field: an empty string falls through. -/
def jsOrStr : Option Str → Option Str → Option Str
  | some s, b => if s.isEmpty then b else some s
  | none, b => b

/-- Resolution of one source path in the fallback branch of
`extractSourceFilesAdvanced`, part_003 lines 1140-1150: an `http`-prefixed
path is used verbatim; otherwise it is resolved against
`sourceMap.sourceRoot || <the script record's url>` when that base is truthy
and parses (`new URL` throwing is caught and skips the path). -/
def sourceUrlFor (sourceRoot jsUrl : Option Str) (sourcePath : Str) : Option Str :=
  if startsWithL "http".data sourcePath then some sourcePath
  else
    match jsOrStr sourceRoot jsUrl with
    | some baseStr =>
      if baseStr.isEmpty then none
      else
        match parseAbsUrl baseStr with
        | some B => (resolveRef sourcePath B).map Url.href
        | none => none
    | none => none

/-- One iteration of the fallback loop (part_003 lines 1135-1183); the state
carries the catalog, the extracted count and the log of fetched URLs. The
fetch oracle returns the body text, or `none` when the fetch (or reading the
body) throws — the `catch` then just continues with the next path. -/
def advFallbackStep (sourceRoot jsUrl : Option Str) (oracle : Str → Option Str)
    (acc : List (Str × FileRec) × Nat × List Str) (sourcePath : Str) :
    List (Str × FileRec) × Nat × List Str :=
  if sourcePath.isEmpty then acc
  else
    match sourceUrlFor sourceRoot jsUrl sourcePath with
    | none => acc
    | some url =>
      match oracle url with
      | none => (acc.1, acc.2.1, acc.2.2 ++ [url])
      | some content =>
        if !(hasSub "webpack/".data (cleanSourcePath sourcePath))
            && !(hasSub "node_modules/".data (cleanSourcePath sourcePath))
            && !(startsWithL "(webpack)".data (cleanSourcePath sourcePath)) then
          (mapSet acc.1 ("sources/".data ++ cleanSourcePath sourcePath)
            { content := Content.txt content, size := content.length,
              ftype := "source".data, url := some url, contentType := none,
              originalPath := some sourcePath },
           acc.2.1 + 1, acc.2.2 ++ [url])
        else (acc.1, acc.2.1, acc.2.2 ++ [url])

/-- The fallback branch of `extractSourceFilesAdvanced` for maps with
`sources` but no `sourcesContent`, part_003 lines 1131-1185. -/
def advFallback (sources : List Str) (sourceRoot jsUrl : Option Str)
    (oracle : Str → Option Str) (files : List (Str × FileRec)) :
    List (Str × FileRec) × Nat × List Str :=
  sources.foldl (advFallbackStep sourceRoot jsUrl oracle) (files, 0, [])

/-- The fetch attempts the fallback loop makes: one per nonempty, resolvable
source path, independent of every fetch outcome. -/
def fallbackAttempts (sources : List Str) (sourceRoot jsUrl : Option Str) : List Str :=
  sources.filterMap (fun p =>
    if p.isEmpty then none else sourceUrlFor sourceRoot jsUrl p)

theorem advFallbackStep_log (sourceRoot jsUrl : Option Str)
    (oracle : Str → Option Str) (acc : List (Str × FileRec) × Nat × List Str)
    (p : Str) :
    (advFallbackStep sourceRoot jsUrl oracle acc p).2.2
      = acc.2.2 ++ (if p.isEmpty then none else sourceUrlFor sourceRoot jsUrl p).toList := by
  unfold advFallbackStep
  by_cases hp : p.isEmpty = true
  · simp [hp]
  · rw [Bool.not_eq_true] at hp
    simp only [hp, Bool.false_eq_true, if_false]
    cases hu : sourceUrlFor sourceRoot jsUrl p with
    | none => simp
    | some url =>
      simp only [Option.toList]
      cases ho : oracle url with
      | none => simp
      | some content =>
        by_cases hf : (!(hasSub "webpack/".data (cleanSourcePath p))
            && !(hasSub "node_modules/".data (cleanSourcePath p))
            && !(startsWithL "(webpack)".data (cleanSourcePath p))) = true
      
      <;> simp [hf]

theorem advFallback_log_aux (sourceRoot jsUrl : Option Str)
    (oracle : Str → Option Str) :
    ∀ (l : List Str) (acc : List (Str × FileRec) × Nat × List Str),
      (l.foldl (advFallbackStep sourceRoot jsUrl oracle) acc).2.2
        = acc.2.2 ++ fallbackAttempts l sourceRoot jsUrl := by
  intro l
  induction l with
  | nil => intro acc; simp [fallbackAttempts]
  | cons p rest ih =>
    intro acc
    simp only [List.foldl_cons]
    rw [ih]
    rw [advFallbackStep_log]
    unfold fallbackAttempts
    rw [List.filterMap_cons]
    cases hq : (if p.isEmpty then none else sourceUrlFor sourceRoot jsUrl p) with
    | none => simp
    | some url => simp

/-- The fallback loop attempts exactly `fallbackAttempts`, whatever the fetch
outcomes are. -/
theorem advFallback_attempts (sources : List Str) (sourceRoot jsUrl : Option Str)
    (oracle : Str → Option Str) (files : List (Str × FileRec)) :
    (advFallback sources sourceRoot jsUrl oracle files).2.2
      = fallbackAttempts sources sourceRoot jsUrl := by
  unfold advFallback
  rw [advFallback_log_aux]
  simp

/-- An element of the parsed document: tag name and attribute list in source
order (all the extractor reads). -/
structure HElem where
  tag : Str
  attrs : List (Str × Str)
deriving DecidableEq

/-- DOM `getAttribute`: the first attribute with the given name. -/
def getAttribute (e : HElem) (name : Str) : Option Str :=
  match e.attrs.find? (fun a => a.1 == name) with
  | some a => some a.2
  | none => none

def isTagNameChar (c : Char) : Bool :=
  decide ('a' ≤ c ∧ c ≤ 'z') || decide ('A' ≤ c ∧ c ≤ 'Z')
    || decide ('0' ≤ c ∧ c ≤ '9') || c == '!' || c == '-'

def isAttrNameChar (c : Char) : Bool :=
  !(c == '=' || c == ' ' || c == '>' || c == '/' || c == '"')

/-- Attribute scanning of the markup tokenizer (models `DOMParser` on the
plain tags the pipeline meets): `name="value"` pairs and bare names up to the
closing `>`. Fuel-bounded; the fuel is spent one attribute at a time. -/
def parseAttrs : Nat → Str → List (Str × Str) × Str
  | 0, s => ([], s)
  | f + 1, s =>
    match s.dropWhile (fun c => c == ' ') with
    | [] => ([], [])
    | '>' :: r => ([], r)
    | '/' :: r => parseAttrs f r
    | s1 =>
      match s1.dropWhile isAttrNameChar with
      | '=' :: '"' :: r2 =>
        match splitFirst '"' r2 with
        | (v, some rest) =>
          let pr := parseAttrs f rest
          ((s1.takeWhile isAttrNameChar, v) :: pr.1, pr.2)
        | (v, none) => ([(s1.takeWhile isAttrNameChar, v)], [])
      | s2 =>
        let pr := parseAttrs f s2
        ((s1.takeWhile isAttrNameChar, []) :: pr.1, pr.2)

/-- Tokenizer main loop: skip to `<`, drop closing tags, read the tag name
and attributes of opening tags, in document order. -/
def phAux : Nat → Str → List HElem
  | 0, _ => []
  | f + 1, s =>
    match (splitFirst '<' s).2 with
    | none => []
    | some rest =>
      match rest with
      | '/' :: r => phAux f ((splitFirst '>' r).2.getD [])
      | _ =>
        let pr := parseAttrs ((rest.dropWhile isTagNameChar).length + 1)
          (rest.dropWhile isTagNameChar)
        { tag := rest.takeWhile isTagNameChar, attrs := pr.1 } :: phAux f pr.2

/-- `DOMParser.parseFromString(html, 'text/html')`, restricted to the flat
element list the extractor queries. -/
def parseHTMLDoc (s : Str) : List HElem := phAux (s.length + 1) s

/-- JS `Set.prototype.add`: insertion-ordered, duplicates collapsed. -/
def setAdd (l : List Str) (s : Str) : List Str := if s ∈ l then l else l ++ [s]

/-- `addResourceUrl`, part_001 lines 396-410: the reject list, `new URL`
resolution and the `startsWith('http')` check live in `resolveUrl`; an
accepted URL is added to the set. -/
def addResourceUrl (url : Str) (base : Url) (resourceUrls : List Str) : List Str :=
  match resolveUrl url base with
  | some full => setAdd resourceUrls full
  | none => resourceUrls

/-- `extractScripts`, part_001 lines 367-372: `script[src]`. -/
def extractScripts (doc : List HElem) (base : Url) (resourceUrls : List Str) :
    List Str :=
  (doc.filter (fun e => e.tag == "script".data && (getAttribute e "src".data).isSome)).foldl
    (fun acc e => addResourceUrl ((getAttribute e "src".data).getD []) base acc)
    resourceUrls

/-- `extractStylesheets`, part_001 lines 374-379: `link[rel="stylesheet"]`. -/
def extractStylesheets (doc : List HElem) (base : Url) (resourceUrls : List Str) :
    List Str :=
  (doc.filter (fun e => e.tag == "link".data
      && (getAttribute e "rel".data == some "stylesheet".data))).foldl
    (fun acc e => addResourceUrl ((getAttribute e "href".data).getD []) base acc)
    resourceUrls

/-- `extractImages`, part_001 lines 381-386: `img[src]`. -/
def extractImages (doc : List HElem) (base : Url) (resourceUrls : List Str) :
    List Str :=
  (doc.filter (fun e => e.tag == "img".data && (getAttribute e "src".data).isSome)).foldl
    (fun acc e => addResourceUrl ((getAttribute e "src".data).getD []) base acc)
    resourceUrls

/-- `extractOtherResources`, part_001 lines 388-394:
`link[href]:not([rel="stylesheet"])`. -/
def extractOtherResources (doc : List HElem) (base : Url) (resourceUrls : List Str) :
    List Str :=
  (doc.filter (fun e => e.tag == "link".data && (getAttribute e "href".data).isSome
      && !(getAttribute e "rel".data == some "stylesheet".data))).foldl
    (fun acc e => addResourceUrl ((getAttribute e "href".data).getD []) base acc)
    resourceUrls

/-- `extractStaticResources`, part_001 lines 342-365: parse the base URL
(`new URL(baseUrl)` throwing propagates as `none`), parse the document, and
run the four extraction passes into one insertion-ordered set. -/
def extractStaticResources (html : Str) (baseUrl : Str) : Option (List Str) :=
  match parseAbsUrl baseUrl with
  | none => none
  | some base =>
    some (extractOtherResources (parseHTMLDoc html) base
      (extractImages (parseHTMLDoc html) base
        (extractStylesheets (parseHTMLDoc html) base
          (extractScripts (parseHTMLDoc html) base []))))

/-- `getDefaultFilename`, part_001 lines 834-839. -/
def getDefaultFilename (contentType : Str) : Str :=
  if hasSub "html".data contentType then "index.html".data
  else if hasSub "css".data contentType then "index.css".data
  else if hasSub "javascript".data contentType then "index.js".data
  else "index.bin".data

/-- `getExtensionFromContentType`, part_001 lines 841-860: the entries are
tried in object order, matching `contentType.includes(subtype)`. -/
def getExtensionFromContentType (contentType : Str) : Str :=
  if hasSub "html".data contentType then ".html".data
  else if hasSub "css".data contentType then ".css".data
  else if hasSub "javascript".data contentType then ".js".data
  else if hasSub "json".data contentType then ".json".data
  else if hasSub "png".data contentType then ".png".data
  else if hasSub "jpeg".data contentType then ".jpg".data
  else if hasSub "gif".data contentType then ".gif".data
  else if hasSub "svg+xml".data contentType then ".svg".data
  else ".bin".data

/-- `determineFileType`, part_001 lines 862-878. -/
def determineFileType (filename contentType : Str) : Str :=
  if hasSub "javascript".data contentType then "script".data
  else if hasSub "css".data contentType then "stylesheet".data
  else if hasSub "image".data contentType then "image".data
  else if hasSub "html".data contentType then "html".data
  else
    let ext := ((splitAllCh '.' filename).getLastD []).map lowerCh
    if ext == "js".data || ext == "jsx".data || ext == "ts".data
        || ext == "tsx".data then "script".data
    else if ext == "css".data || ext == "scss".data then "stylesheet".data
    else if ext == "png".data || ext == "jpg".data || ext == "jpeg".data
        || ext == "gif".data || ext == "svg".data then "image".data
    else if ext == "html".data || ext == "htm".data then "html".data
    else if ext == "map".data then "sourcemap".data
    else "other".data

/-- `generateFilename`, part_001 lines 800-832; `now` stands for the
`Date.now()` fallback token. -/
def generateFilename (now : Nat) (url : Str) (contentType : Str) : Str :=
  match parseAbsUrl url with
  | none => "resource_".data ++ natStr now ++ ".bin".data
  | some u =>
    if u.pathname.isEmpty || u.pathname == "/".data
        || endsWithL "/".data u.pathname then
      getDefaultFilename contentType
    else
      let filename0 := (splitAllCh '/' u.pathname).getLastD []
      let hasExt := filename0.contains '.'
      let filename1 :=
        if !u.search.isEmpty && !hasExt then
          filename0 ++ '_' ::
            (((u.search.drop 1).map
              (fun c => if c == '=' || c == '&' then '_' else c)).take 20)
        else filename0
      let filename2 := (splitFirst '?' filename1).1
      let filename3 :=
        if !hasExt then filename2 ++ getExtensionFromContentType contentType
        else filename2
      if (replBad filename3).isEmpty then "resource_".data ++ natStr now ++ ".bin".data
      else replBad filename3

/-- `stopDownload`, part_001 lines 1032-1036: clear the cancellation flag
(the log and DOM updates are out of core). -/
def stopDownload (st : St) : St := { st with isDownloading := false }

/-- `downloadSingleResource`, part_001 lines 443-465, as one unit of work.
`oracle` supplies the network outcomes for the unit's URL and `i` the
`Date.now()` stand-in. The ghost flag `sdFlag` records whether the user's
`stop()` click runs while this unit's fetch is awaited: the flag is cleared
then, but the unit still completes and saves, exactly as the source does
(there is no re-check between the `await` and `saveFile`). -/
def downloadSingleResource (oracle : Str → DirectOutcome × ProxyOutcome)
    (sdFlag : Bool) (i : Nat) (url : Str) (st : St) : St × List Str :=
  if url ∈ st.downloadedUrls then (st, [])
  else
    let st1 := if sdFlag then stopDownload st else st
    match fetchWithCORS (oracle url).1 (oracle url).2 with
    | Except.error _ => (st1, [url])
    | Except.ok r =>
      let st2 := saveFile (generateFilename i url (getContentType r))
        { content := getResponseContent r (getContentType r),
          size := getContentSize (getResponseContent r (getContentType r)),
          ftype := determineFileType (generateFilename i url (getContentType r))
            (getContentType r),
          url := some url, contentType := some (getContentType r),
          originalPath := none } st1
      ({ st2 with downloadedUrls := st2.downloadedUrls ++ [url] }, [url])

/-- `downloadStaticResources`, part_001 lines 416-437: the per-phase work
loop. `if (!this.isDownloading) break;` heads each iteration; the schedule
`sb`/`sd` says at which units the environment's `stop()` click runs (before
the check, or during the unit's awaits). The second component logs the URLs
for which a fetch was issued. -/
def downloadStaticResources (oracle : Str → DirectOutcome × ProxyOutcome)
    (sb sd : Nat → Bool) : List Str → Nat → St → St × List Str
  | [], _, st => (st, [])
  | u :: rest, i, st =>
    let stA := if sb i then stopDownload st else st
    if stA.isDownloading then
      let pr := downloadSingleResource oracle (sd i) i u stA
      let pr2 := downloadStaticResources oracle sb sd rest (i + 1) pr.1
      (pr2.1, pr.2 ++ pr2.2)
    else (stA, [])

theorem stopDownload_inactive {st : St} (h : st.isDownloading = false) :
    stopDownload st = st := by
  obtain ⟨a, b, c, d⟩ := st
  simp only at h
  rw [stopDownload, h]

/-- Once the flag is observed false at an iteration's check, the loop issues
no fetch and leaves the state untouched. -/
theorem downloadStaticResources_inactive (oracle : Str → DirectOutcome × ProxyOutcome)
    (sb sd : Nat → Bool) :
    ∀ (urls : List Str) (i : Nat) (st : St), st.isDownloading = false →
      downloadStaticResources oracle sb sd urls i st = (st, []) := by
  intro urls
  cases urls with
  | nil => intro i st _; rfl
  | cons u rest =>
    intro i st h
    unfold downloadStaticResources
    by_cases hsb : sb i = true
    · simp [hsb, stopDownload_inactive h, h]
    · have hh : sb i = false := by simpa using hsb
      simp [hh, h]

theorem downloadSingleResource_keys (oracle : Str → DirectOutcome × ProxyOutcome)
    (sdFlag : Bool) (i : Nat) (url : Str) (st : St) (k : Str)
    (h : hasKey st.downloadedFiles k = true) :
    hasKey (downloadSingleResource oracle sdFlag i url st).1.downloadedFiles k = true := by
  unfold downloadSingleResource
  by_cases hv : url ∈ st.downloadedUrls
  · simp [hv, h]
  · simp only [hv, if_false]
    cases hf : fetchWithCORS (oracle url).1 (oracle url).2 with
    | error e => cases sdFlag <;> simp [hf, stopDownload, h]
    | ok r =>
      cases sdFlag <;>
        simpa [hf, saveFile, stopDownload] using hasKey_mapSet_mono _ _ _ k h

/-- Catalogued filenames are never removed by the phase loop. -/
theorem downloadStaticResources_keys (oracle : Str → DirectOutcome × ProxyOutcome)
    (sb sd : Nat → Bool) :
    ∀ (urls : List Str) (i : Nat) (st : St) (k : Str),
      hasKey st.downloadedFiles k = true →
      hasKey (downloadStaticResources oracle sb sd urls i st).1.downloadedFiles k
        = true := by
  intro urls
  induction urls with
  | nil => intro i st k h; exact h
  | cons u rest ih =>
    intro i st k h
    unfold downloadStaticResources
    have hA : hasKey (if sb i then stopDownload st else st).downloadedFiles k = true := by
      cases hsb : sb i <;> simpa [stopDownload] using h
    by_cases hact : (if sb i then stopDownload st else st).isDownloading = true
    · simp only [hact, if_pos rfl]
      exact ih (i + 1) _ k (downloadSingleResource_keys oracle (sd i) i u _ k hA)
    · have : (if sb i then stopDownload st else st).isDownloading = false := by
        simpa using hact
      simp only [this, Bool.false_eq_true, if_false]
      exact hA

/-- The empty session state. -/
def st0 : St :=
  { isDownloading := true, downloadedFiles := [], downloadedUrls := [], stats := stats0 }

/-- A concrete record, content `AAAA`. -/
def recA : FileRec :=
  { content := Content.txt "AAAA".data, size := 4, ftype := "script".data,
    url := some "http://h/a.js".data, contentType := some "text/javascript".data,
    originalPath := none }

/-- A concrete record, content `BBBB`. -/
def recB : FileRec :=
  { content := Content.txt "BBBB".data, size := 4, ftype := "script".data,
    url := some "http://h/sub/a.js".data, contentType := some "text/javascript".data,
    originalPath := none }

/-- C1 counterexample: the basic catalog's `saveFile` (part_001) stores under
the given key unconditionally, so inserting a second record under the
already-present key `a.js` replaces the first record in place — no `_N`
renaming happens and the original record is lost. -/
theorem c1_saveFile_overwrites_cex :
    (saveFile "a.js".data recB (saveFile "a.js".data recA st0)).downloadedFiles
      = [("a.js".data, recB)] ∧ recB ≠ recA := by decide

/-- C1 amended: the basic `saveFile` overwrites the resident record of an
existing key; only the advanced extraction's insertion (part_003) renames the
incoming record, storing it under `base_Next` for the least counter `N ≥ 1`
whose candidate is unused (`ext` being the extension of the original name and
`base` the original name with the first occurrence of `ext` removed), never
overwriting and keeping filenames unique. -/
theorem c1_catalog_insertion_amended :
    (∀ (st : St) (fn : Str) (r : FileRec),
       lookupF (saveFile fn r st).downloadedFiles fn = some r) ∧
    (∀ (files : List (Str × FileRec)) (fn : Str) (r : FileRec),
       hasKey files (uniqueFilename files fn) = false ∧
       (∀ k, hasKey files k = true →
          lookupF (setUnique files fn r) k = lookupF files k) ∧
       ((files.map Prod.fst).Nodup → ((setUnique files fn r).map Prod.fst).Nodup) ∧
       (hasKey files fn = false → uniqueFilename files fn = fn) ∧
       (hasKey files fn = true →
         ∃ n, 1 ≤ n ∧
           uniqueFilename files fn
             = candName (jsReplaceFirst (getFileExtension fn) [] fn)
                 (getFileExtension fn) n ∧
           ∀ m, 1 ≤ m → m < n →
             hasKey files (candName (jsReplaceFirst (getFileExtension fn) [] fn)
               (getFileExtension fn) m) = true)) := by
  constructor
  · intro st fn r
    show lookupF (mapSet st.downloadedFiles fn r) fn = some r
    exact lookupF_mapSet_self _ _ _
  · intro files fn r
    refine ⟨uniqueFilename_free files fn, ?_, ?_, ?_, ?_⟩
    · intro k hk
      have hne : k ≠ uniqueFilename files fn := by
        intro he
        have hfree := uniqueFilename_free files fn
        rw [← he] at hfree
        rw [hfree] at hk
        simp at hk
      exact lookupF_mapSet_other files _ r hne
    · intro hnd
      exact nodup_keys_mapSet_fresh r (uniqueFilename_free files fn) hnd
    · intro hfree
      unfold uniqueFilename
      rw [if_neg (by rw [hfree]; simp)]
    · intro hcol
      obtain ⟨n, hn1, heq, _, hmin⟩ := uniqueFilename_shape files fn hcol
      exact ⟨n, hn1, heq, hmin⟩

/-- Witness for C1's amended statement: inserting a colliding `a.js` through
the advanced path leaves the resident record readable, while the basic
`saveFile` replaces it. -/
theorem c1_catalog_insertion_amended_witness :
    lookupF (setUnique [("a.js".data, recA)] "a.js".data recB) "a.js".data
      = some recA ∧
    lookupF (saveFile "a.js".data recB st0).downloadedFiles "a.js".data = some recB := by
  constructor
  · have h := (c1_catalog_insertion_amended.2 [("a.js".data, recA)] "a.js".data recB).2.1
      "a.js".data (by decide)
    rw [h]
    decide
  · exact c1_catalog_insertion_amended.1 st0 "a.js".data recB

/-- C2 counterexample: a direct response with HTTP status 404 is not surfaced
as an error carrying that status; `fetchWithCORS` silently falls back to the
relay and returns the relay's synthetic 200/`text/plain` response. -/
theorem c2_http_error_fallback_cex :
    fetchWithCORS (DirectOutcome.resp 404 none "notfound".data [])
        (ProxyOutcome.resp 200 (some "X".data))
      = Except.ok { ok := true, status := 200, contentType := some "text/plain".data,
                    textBody := "X".data, bufBody := utf8Bytes "X".data,
                    viaRelay := true } := rfl

/-- C2 amended: the fetcher falls back to the relay both on a network-level
failure and on any direct response with non-2xx status, treating the two
identically; the direct status is never surfaced — a successful result after
a non-ok direct response always comes from the relay and reports 200. -/
theorem c2_fetch_fallback_amended (status : Nat) (ct : Option Str) (tb : Str)
    (bb : List Nat) (p : ProxyOutcome) (h : okStatus status = false) :
    fetchWithCORS (DirectOutcome.resp status ct tb bb) p = relayFetch p ∧
    fetchWithCORS (DirectOutcome.resp status ct tb bb) p
      = fetchWithCORS DirectOutcome.netFail p ∧
    (∀ r, fetchWithCORS (DirectOutcome.resp status ct tb bb) p = Except.ok r →
       r.viaRelay = true ∧ r.status = 200) := by
  have h1 : fetchWithCORS (DirectOutcome.resp status ct tb bb) p = relayFetch p := by
    simp only [fetchWithCORS, h, Bool.false_eq_true, if_false]
  refine ⟨h1, by rw [h1]; rfl, ?_⟩
  intro r hr
  rw [h1] at hr
  cases p with
  | netFail => simp [relayFetch] at hr
  | resp ps contents =>
    by_cases hps : okStatus ps = true
    · cases contents with
      | none => simp [relayFetch, hps] at hr
      | some s =>
        simp only [relayFetch, hps, Bool.not_true, Bool.false_eq_true, if_false] at hr
        simp only [Except.ok.injEq] at hr
        rw [← hr]
        exact ⟨rfl, rfl⟩
    · rw [Bool.not_eq_true] at hps
      simp [relayFetch, hps] at hr

/-- Witness for C2's amended statement at a concrete 404 direct response. -/
theorem c2_fetch_fallback_amended_witness :
    fetchWithCORS (DirectOutcome.resp 404 none [] []) ProxyOutcome.netFail
      = relayFetch ProxyOutcome.netFail :=
  (c2_fetch_fallback_amended 404 none [] [] ProxyOutcome.netFail (by decide)).1

/-- C3 counterexample: the basic processor (part_001) is handed a parsed map
whose `sourcesContent` is absent and `sources` is `["a.js"]`: it returns at
once with an unchanged catalog and an extracted count of 0 — it attempts no
per-path fetch at all (the function performs no network calls in this case),
contradicting one attempted fetch per source path. -/
theorem c3_basic_no_fallback_cex :
    extractSourceFilesFromMap
      { sources := some ["a.js".data], sourcesContent := none, sourceRoot := none } st0
      = (st0, 0) := rfl

/-- C3 amended: only the advanced processor (part_003) performs per-path
fallback fetches: it attempts exactly one fetch per nonempty source path that
resolves (verbatim when `http`-prefixed, else against
`sourceRoot || <script URL>`), and the attempt list is independent of every
fetch outcome, so one path's failure never prevents the remaining paths'
fetches or extraction; the basic processor (part_001) extracts nothing and
fetches nothing when `sourcesContent` is absent. -/
theorem c3_fallback_fetch_amended :
    (∀ (sources : List Str) (root jsUrl : Option Str) (oracle : Str → Option Str)
       (files : List (Str × FileRec)),
       (advFallback sources root jsUrl oracle files).2.2
         = fallbackAttempts sources root jsUrl) ∧
    (∀ (srcs : List Str) (root : Option Str) (st : St),
       extractSourceFilesFromMap
         { sources := some srcs, sourcesContent := none, sourceRoot := root } st
         = (st, 0)) ∧
    advFallback ["bad.js".data, "good.js".data] (some "https://x.test/".data) none
        (fun u => if u == "https://x.test/good.js".data then some "G".data else none) []
      = ([("sources/good.js".data,
           { content := Content.txt "G".data, size := 1, ftype := "source".data,
             url := some "https://x.test/good.js".data, contentType := none,
             originalPath := some "good.js".data })],
         1,
         ["https://x.test/bad.js".data, "https://x.test/good.js".data]) := by
  refine ⟨?_, ?_, by decide⟩
  · intro sources root jsUrl oracle files
    exact advFallback_attempts sources root jsUrl oracle files
  · intro srcs root st
    rfl

/-- C4: extraction pairs `sources[i]` with `sourcesContent[i]` for every
index (the walk equals a fold over the positionally-zipped, filtered pairs),
and the concrete map with sources `a.js`,`b.js` and contents `X`,`Y` extracts
exactly the two files `src/a.js` = `X` and `src/b.js` = `Y`. -/
theorem c4_positional_pairing :
    (∀ (m : SMap) (st : St),
       extractSourceFilesFromMap m st
         = ((extractedPairs m).foldl
             (fun s pr =>
               saveFile ("src/".data ++ cleanSourcePath pr.1) (mkSourceRec pr) s)
             st,
            (extractedPairs m).length)) ∧
    extractSourceFilesFromMap
        { sources := some ["a.js".data, "b.js".data],
          sourcesContent := some ["X".data, "Y".data], sourceRoot := none } st0
      = ({ st0 with
            downloadedFiles :=
              [("src/a.js".data, mkSourceRec ("a.js".data, "X".data)),
               ("src/b.js".data, mkSourceRec ("b.js".data, "Y".data))],
            stats := { totalFiles := 2, sourceFiles := 2, jsFiles := 0, cssFiles := 0,
                       imageFiles := 0, totalSize := 2 } }, 2) := by
  exact ⟨extractSourceFilesFromMap_eq, by decide⟩

/-- C5 counterexample: the claim's step "strip everything from the first `?`
onward" disagrees with the code on a path holding a line terminator after the
`?`: the regex `\?.*$` cannot match there, so the code keeps the tail and
later turns the `?` into `_`, while the claimed pipeline drops it. -/
theorem c5_cleanPath_cex :
    cleanSourcePath "a?b\nc".data = "a_b\nc".data ∧
    cleanPathClaim "a?b\nc".data = "a".data ∧
    cleanSourcePath "a?b\nc".data ≠ cleanPathClaim "a?b\nc".data := by decide

/-- C5 amended: the six replacements run in the claimed order, but the `?`
step strips from the first `?` of the text after the last line terminator
(the claim's wording holds on every path without line terminators); the
example `webpack:///./src/app.js` cleans to `src/app.js`, which both noise
filters keep. -/
theorem c5_cleanPath_amended :
    (∀ s, stripQueryTail s = specStripQueryAmended s) ∧
    (∀ s, (∀ d ∈ s, isLineTerm d = false) → cleanSourcePath s = cleanPathClaim s) ∧
    cleanSourcePath "webpack:///./src/app.js".data = "src/app.js".data ∧
    shouldExtractSource "src/app.js".data "X".data = true ∧
    advDiscard "src/app.js".data = false := by
  exact ⟨stripQueryTail_eq_amended,
    fun s h => cleanSourcePath_eq_claim_of_no_term h, by decide, by decide, by decide⟩

/-- Witness for C5's amended statement: a concrete terminator-free path on
which the code pipeline and the claimed pipeline agree. -/
theorem c5_cleanPath_amended_witness :
    cleanSourcePath "./x?y=1".data = cleanPathClaim "./x?y=1".data :=
  c5_cleanPath_amended.2.1 "./x?y=1".data (by decide)

/-- C6 counterexample: the basic processor (part_001) extracts the entry with
source path `a`, whose cleaned path `a` is shorter than 2 characters — the
claimed discard of short cleaned paths does not happen there (its filter runs
on the raw path and has no length rule). -/
theorem c6_short_path_extracted_cex :
    extractSourceFilesFromMap
        { sources := some ["a".data], sourcesContent := some ["X".data],
          sourceRoot := none } st0
      = ({ st0 with
            downloadedFiles := [("src/a".data, mkSourceRec ("a".data, "X".data))],
            stats := { totalFiles := 1, sourceFiles := 1, jsFiles := 0, cssFiles := 0,
                       imageFiles := 0, totalSize := 1 } }, 1) := by decide

/-- C6 amended: the advanced processor (part_003) applies the filter to the
cleaned path and discards exactly under the claim's conditions plus a bare
`(webpack` prefix and the literal path `..`; `webpack/bootstrap` is indeed
discarded. The basic processor (part_001) instead filters the raw path with
its shorter pattern list and no length rule: it keeps the one-character
cleaned path `a` and drops a raw `webpack:///...` path whose cleaned form
`src/app.js` carries no noise marker. -/
theorem c6_noise_filter_amended :
    (∀ p, advDiscard p = c6AmendedDiscard p) ∧
    advDiscard "webpack/bootstrap".data = true ∧
    shouldExtractSource "a".data "X".data = true ∧
    shouldExtractSource "webpack:///./src/app.js".data "X".data = false ∧
    advDiscard (cleanSourcePath "webpack:///./src/app.js".data) = false := by
  exact ⟨advDiscard_eq_c6Amended, by decide, by decide, by decide, by decide⟩

/-- C8: on the given document and base, the markup extractor returns exactly
the two absolute URLs, in insertion order with duplicates collapsed. -/
theorem c8_markup_extraction :
    extractStaticResources
        "<script src=\"/a.js\"></script><link rel=\"stylesheet\" href=\"/b.css\">".data
        "https://x.test/".data
      = some ["https://x.test/a.js".data, "https://x.test/b.css".data] := by decide

/-- Network outcomes for the C9 scenario: every URL answers directly with
status 200 and javascript content; `http://h/a.js` carries `AAAA`, any other
URL carries `BBBB`. -/
def c9Oracle : Str → DirectOutcome × ProxyOutcome := fun u =>
  (DirectOutcome.resp 200 (some "text/javascript".data)
    (if u == "http://h/a.js".data then "AAAA".data else "BBBB".data) [],
   ProxyOutcome.netFail)

def c9urls : List Str := ["http://h/a.js".data, "http://h/sub/a.js".data]

/-- C9 counterexample: `stop()` runs while the second unit's fetch is
awaited (schedule `sd 1`). At that moment the catalog holds `a.js` with
content `AAAA`; the in-flight unit still completes, its generated filename
for `http://h/sub/a.js` is again `a.js`, and `saveFile` overwrites the
record — so a record present at the moment of cancellation does not remain
unchanged, though the loop does halt with no further fetches. -/
theorem c9_stop_overwrite_cex :
    (lookupF (downloadSingleResource c9Oracle false 0 "http://h/a.js".data st0).1.downloadedFiles
        "a.js".data).map FileRec.content = some (Content.txt "AAAA".data) ∧
    (lookupF (downloadStaticResources c9Oracle (fun _ => false) (fun i => i == 1)
          c9urls 0 st0).1.downloadedFiles
        "a.js".data).map FileRec.content = some (Content.txt "BBBB".data) ∧
    (downloadStaticResources c9Oracle (fun _ => false) (fun i => i == 1)
        c9urls 0 st0).1.isDownloading = false ∧
    (downloadStaticResources c9Oracle (fun _ => false) (fun i => i == 1)
        c9urls 0 st0).2 = c9urls := by decide

/-- C9 amended: the phase loop observes the cleared flag before each unit of
work and then issues no further fetches, leaving the catalog exactly as it
was at that check; every record catalogued before cancellation remains
present; but the single unit already in flight when `stop()` runs still
completes, and when its saved filename collides with an existing record the
basic `saveFile` overwrites that record's content. -/
theorem c9_cancellation_amended :
    (∀ (oracle : Str → DirectOutcome × ProxyOutcome) (sb sd : Nat → Bool)
       (urls : List Str) (i : Nat) (st : St), st.isDownloading = false →
       downloadStaticResources oracle sb sd urls i st = (st, [])) ∧
    (∀ (oracle : Str → DirectOutcome × ProxyOutcome) (sb sd : Nat → Bool)
       (u : Str) (rest : List Str) (i : Nat) (st : St), sb i = true →
       downloadStaticResources oracle sb sd (u :: rest) i st = (stopDownload st, [])) ∧
    (∀ (oracle : Str → DirectOutcome × ProxyOutcome) (sb sd : Nat → Bool)
       (urls : List Str) (i : Nat) (st : St) (k : Str),
       hasKey st.downloadedFiles k = true →
       hasKey (downloadStaticResources oracle sb sd urls i st).1.downloadedFiles k
         = true) := by
  refine ⟨downloadStaticResources_inactive, ?_, downloadStaticResources_keys⟩
  intro oracle sb sd u rest i st h
  unfold downloadStaticResources
  simp [h, stopDownload]

/-- Witness for C9's amended statement: with the flag already cleared, the
loop does nothing at all. -/
theorem c9_cancellation_amended_witness :
    downloadStaticResources c9Oracle (fun _ => false) (fun _ => false) c9urls 0
        (stopDownload st0)
      = (stopDownload st0, []) :=
  c9_cancellation_amended.1 c9Oracle (fun _ => false) (fun _ => false) c9urls 0
    (stopDownload st0) (by decide)

/-- C10: every response produced through the relay fallback reports `ok`,
status 200 and content type `text/plain` regardless of the target's real
status and MIME type, and the content classifier therefore always takes the
text branch for it — relay-fetched resources are stored as decoded text,
never as a binary buffer. -/
theorem c10_relay_response_shape (d : DirectOutcome) (p : ProxyOutcome)
    (r : JsResponse) (h : fetchWithCORS d p = Except.ok r)
    (hrelay : r.viaRelay = true) :
    r.ok = true ∧ r.status = 200 ∧ getContentType r = "text/plain".data ∧
    getResponseContent r (getContentType r) = Content.txt r.textBody := by
  have hrel : ∀ (q : ProxyOutcome), relayFetch q = Except.ok r →
      r.ok = true ∧ r.status = 200 ∧ getContentType r = "text/plain".data ∧
      getResponseContent r (getContentType r) = Content.txt r.textBody := by
    intro q hq
    cases q with
    | netFail => simp [relayFetch] at hq
    | resp ps contents =>
      by_cases hps : okStatus ps = true
      · cases contents with
        | none => simp [relayFetch, hps] at hq
        | some s =>
          simp only [relayFetch, hps, Bool.not_true, Bool.false_eq_true, if_false] at hq
          simp only [Except.ok.injEq] at hq
          rw [← hq]
          refine ⟨rfl, rfl, rfl, ?_⟩
          have hcond : (hasSub "text".data "text/plain".data
              || hasSub "javascript".data "text/plain".data
              || hasSub "json".data "text/plain".data
              || hasSub "css".data "text/plain".data) = true := by decide
          show getResponseContent _ "text/plain".data = _
          unfold getResponseContent
          rw [if_pos hcond]
      · rw [Bool.not_eq_true] at hps
        simp [relayFetch, hps] at hq
  cases d with
  | netFail => exact hrel p h
  | resp ds ct tb bb =>
    by_cases hds : okStatus ds = true
    · simp only [fetchWithCORS, hds, if_true] at h
      simp only [Except.ok.injEq] at h
      rw [← h] at hrelay
      simp at hrelay
    · rw [Bool.not_eq_true] at hds
      simp only [fetchWithCORS, hds, Bool.false_eq_true, if_false] at h
      exact hrel p h

/-- The concrete relay response of the C10 witness. -/
def c10resp : JsResponse :=
  { ok := true, status := 200, contentType := some "text/plain".data,
    textBody := "PNGDATA".data, bufBody := utf8Bytes "PNGDATA".data, viaRelay := true }

/-- Witness for C10 at a concrete 500/`image/png` target served through the
relay. -/
theorem c10_relay_response_shape_witness :
    c10resp.ok = true ∧ c10resp.status = 200 ∧
    getContentType c10resp = "text/plain".data ∧
    getResponseContent c10resp (getContentType c10resp)
      = Content.txt c10resp.textBody :=
  c10_relay_response_shape
    (DirectOutcome.resp 500 (some "image/png".data) [] [1, 2, 3])
    (ProxyOutcome.resp 200 (some "PNGDATA".data)) c10resp rfl rfl
